import Mathlib

/-!
Verification of the reconciliation core of `feedly_asset_sync` (`main.py`).

The Python functions `sync_to_feedly`, `_add_entries_to_feedly` and
`_create_new_feedly_list` are shallowly embedded below.  A Feedly list
(`FItem`) carries an id, a label and its entities; a Jira type group is an
association list from object-type names to label lists.  The engine emits
write intents (`Intent.update` for a PUT payload, `Intent.create` for a POST
payload) and side effects (`Eff`): a real PUT/POST followed by `time.sleep(1)`
in live mode, or a rendered log line in test mode.

Python sets of strings are modelled as duplicate-free `List String`
(`set(names)` becomes `names.dedup`, set difference becomes `List.filter`).
The `while new_entries:` loop of `_add_entries_to_feedly` is embedded with a
fuel parameter instantiated at `new_entries.length`, which is sufficient
because every iteration strictly shrinks `new_entries` (proved below).
-/

/-- One Feedly entity record, e.g. `{"type": "customKeyword", "text": name}`.
The Python dict key `"type"` is rendered as the field `kind`. -/
structure Entity where
  kind : String
  text : String
deriving DecidableEq

/-- One well-formed Feedly list as consumed by the sync loop:
`item["id"]`, `item["label"]`, `item["entities"]`. -/
structure FItem where
  id : String
  label : String
  entities : List Entity
deriving DecidableEq

/-- The texts of a list's entities: `{entity.get("text") for entity in item.get("entities", [])}`. -/
def itemTexts (it : FItem) : List String := it.entities.map (fun e => e.text)

/-- A write intent: the PUT payload of `_update_feedly_list` (id, label, full
entities) or the POST payload of `_create_new_feedly_list` (label, entities). -/
inductive Intent where
  | update (id : String) (label : String) (entities : List Entity)
  | create (label : String) (entities : List Entity)
deriving DecidableEq

/-- The entities collection carried by an intent. -/
def Intent.entities : Intent → List Entity
  | .update _ _ es => es
  | .create _ es => es

/-- The destination-list label an intent addresses. -/
def Intent.label : Intent → String
  | .update _ l _ => l
  | .create l _ => l

/-- Observable side effects of the sync pass: a dispatched PUT or POST, a
`time.sleep` pause, or a test-mode rendering of the payload into the log. -/
inductive Eff where
  | put (label : String)
  | post (label : String)
  | sleep (n : Nat)
  | render (label : String)
deriving DecidableEq

/-- Whether an effect is a destination write (PUT or POST). -/
def Eff.isWrite : Eff → Bool
  | .put _ => true
  | .post _ => true
  | _ => false

/-- Whether an effect is a pacing delay. -/
def Eff.isSleep : Eff → Bool
  | .sleep _ => true
  | _ => false

/-- Python's `label.startswith(object_type)`: character-list prefix test. -/
def strStartsWith (s pre : String) : Bool := pre.data.isPrefixOf s.data

/-- Build the entity appended for a new name: `{"type": "customKeyword", "text": name}`. -/
def mkEntry (name : String) : Entity := ⟨"customKeyword", name⟩

/-- The scan of `for item in existing_lists:` inside the while loop: find the
first list with `len(item["entities"]) < 50` and a nonempty
`new_entries - current_entities`; return the lists before it, the list itself,
and the lists after it. -/
def scanLists (ne : List String) : List FItem → Option (List FItem × FItem × List FItem)
  | [] => none
  | it :: rest =>
    if it.entities.length < 50 ∧ ne.filter (fun n => decide (n ∉ itemTexts it)) ≠ [] then
      some ([], it, rest)
    else
      match scanLists ne rest with
      | some (pre, x, post) => some (it :: pre, x, post)
      | none => none

/-- Result of one iteration of the `while new_entries:` loop. -/
structure StepResult where
  intent : Intent
  effs : List Eff
  missing : List String
  existing : List FItem
  count : Nat

/-- The body of `_create_new_feedly_list`: bump the per-type list count,
synthesize the label `f"{object_type}-{list_counts[object_type]}"`, take up to
50 entries, POST (or render in test mode) and sleep, and remove the taken
entries from `new_entries`. -/
def createStep (objectType : String) (testMode : Bool) (ne : List String) (c : Nat) :
    Intent × List Eff × List String × Nat :=
  let c' := c + 1
  let newLabel := objectType ++ "-" ++ toString c'
  let toAdd := ne.take 50
  let intent := Intent.create newLabel (toAdd.map mkEntry)
  let effs := if testMode then [Eff.render newLabel] else [Eff.post newLabel, Eff.sleep 1]
  (intent, effs, ne.filter (fun n => decide (n ∉ toAdd)), c')

/-- One iteration of the `while new_entries:` loop of `_add_entries_to_feedly`:
either the scan finds a list with room and unseen entries — extend its
entities in place with up to `space_left` new ones and emit the PUT payload —
or no list qualifies and `_create_new_feedly_list` runs. -/
def loopBody (objectType : String) (testMode : Bool) (ne : List String)
    (ex : List FItem) (c : Nat) : StepResult :=
  match scanLists ne ex with
  | some (pre, it, post) =>
    let toAdd := (ne.filter (fun n => decide (n ∉ itemTexts it))).take (50 - it.entities.length)
    let it' : FItem := { it with entities := it.entities ++ toAdd.map mkEntry }
    let intent := Intent.update it.id it.label it'.entities
    let effs := if testMode then [Eff.render it.label] else [Eff.put it.label, Eff.sleep 1]
    { intent := intent, effs := effs,
      missing := ne.filter (fun n => decide (n ∉ toAdd)),
      existing := pre ++ it' :: post, count := c }
  | none =>
    let (intent, effs, ne', c') := createStep objectType testMode ne c
    { intent := intent, effs := effs, missing := ne', existing := ex, count := c' }

/-- Cumulative result of `_add_entries_to_feedly`: emitted intents and effects
in order, the final (mutated) existing lists, and the final list count. -/
structure LoopResult where
  intents : List Intent
  effs : List Eff
  existing : List FItem
  count : Nat

/-- The `while new_entries:` loop, fuelled.  The fuel is instantiated at
`ne.length` in `addEntriesToFeedly`, which never runs out because each
iteration strictly shrinks `ne`. -/
def addEntriesGo (objectType : String) (testMode : Bool) :
    Nat → List String → List FItem → Nat → LoopResult
  | 0, _, ex, c => ⟨[], [], ex, c⟩
  | _ + 1, [], ex, c => ⟨[], [], ex, c⟩
  | fuel + 1, ne@(_ :: _), ex, c =>
    let r := loopBody objectType testMode ne ex c
    let rest := addEntriesGo objectType testMode fuel r.missing r.existing r.count
    ⟨r.intent :: rest.intents, r.effs ++ rest.effs, rest.existing, rest.count⟩

/-- `_add_entries_to_feedly(new_entries, existing_lists, object_type, list_counts, ...)`. -/
def addEntriesToFeedly (objectType : String) (testMode : Bool)
    (ne : List String) (ex : List FItem) (c : Nat) : LoopResult :=
  addEntriesGo objectType testMode ne.length ne ex c

/-- The per-type list count of `sync_to_feedly`:
`len([label for label in feedly_entities if label.startswith(object_type)])`,
where `feedly_entities` is keyed by the (deduplicated) labels of the snapshot. -/
def listCount (fd : List FItem) (objectType : String) : Nat :=
  (((fd.map (fun it => it.label)).dedup).filter (fun l => strStartsWith l objectType)).length

/-- All entity texts present across a collection of lists (the union the
`for item in existing_lists: new_entries -= current_entities` loop subtracts). -/
def haveTexts (ex : List FItem) : List String := ex.flatMap itemTexts

/-- Write the updated versions of the lists selected by `p` back into the full
snapshot, preserving positions: Python mutates the selected `item` dicts in
place, so the filtered view and the snapshot stay in sync. -/
def mergeBack (p : FItem → Bool) : List FItem → List FItem → List FItem
  | [], _ => []
  | it :: rest, upd =>
    if p it then
      match upd with
      | [] => it :: mergeBack p rest []
      | u :: us => u :: mergeBack p rest us
    else it :: mergeBack p rest upd

/-- The in-memory state threaded through `sync_to_feedly`: the destination
snapshot (`feedly_data`, mutated in place) and the `list_counts` mapping. -/
structure SyncState where
  snapshot : List FItem
  counts : String → Nat

/-- The body of `for object_type, names in jira_data.items():` — select the
existing lists by label prefix, subtract every already-present text from
`set(names)`, and run `_add_entries_to_feedly`. -/
def processType (testMode : Bool) (st : SyncState) (objectType : String)
    (names : List String) : List Intent × List Eff × SyncState :=
  let ex := st.snapshot.filter (fun it => strStartsWith it.label objectType)
  let ne := names.dedup.filter (fun n => decide (n ∉ haveTexts ex))
  let r := addEntriesToFeedly objectType testMode ne ex (st.counts objectType)
  (r.intents, r.effs,
    ⟨mergeBack (fun it => strStartsWith it.label objectType) st.snapshot r.existing,
     fun t => if t = objectType then r.count else st.counts t⟩)

/-- The type loop of `sync_to_feedly`, threading the mutable snapshot and
`list_counts`. -/
def syncLoop (testMode : Bool) : List (String × List String) → SyncState →
    List Intent × List Eff × SyncState
  | [], st => ([], [], st)
  | (objectType, names) :: rest, st =>
    let (is, effs, st') := processType testMode st objectType names
    let (is', effs', st'') := syncLoop testMode rest st'
    (is ++ is', effs ++ effs', st'')

/-- `sync_to_feedly(jira_data, feedly_data, ..., test_mode)` on well-formed
data: `list_counts` is computed once from the initial snapshot, then the type
loop runs. -/
def syncToFeedly (testMode : Bool) (jd : List (String × List String))
    (fd : List FItem) : List Intent × List Eff × SyncState :=
  syncLoop testMode jd ⟨fd, fun t => listCount fd t⟩

example :
    (syncToFeedly true [("Asset", ["a", "b"])] []).1 =
      [Intent.create "Asset-1" [mkEntry "a", mkEntry "b"]] := by decide

example :
    (syncToFeedly true [("T", ["x"])]
      [⟨"i1", "T-1", [mkEntry "y"]⟩]).1 =
      [Intent.update "i1" "T-1" [mkEntry "y", mkEntry "x"]] := by decide

/-- The number of CreateList intents in an intent sequence. -/
def countCreates (is : List Intent) : Nat :=
  (is.filter (fun i => match i with | .create _ _ => true | _ => false)).length

/-- `totalSpareCapacity(existing)`: the sum over the lists of
`max(0, 50 - len(entries))` (truncated subtraction on `Nat`). -/
def spareCapacity (ex : List FItem) : Nat :=
  (ex.map (fun it => 50 - it.entities.length)).sum

/-- The labels synthesized by the CreateList intents of a run, in order. -/
def createLabels (is : List Intent) : List String :=
  is.filterMap (fun i => match i with | .create l _ => some l | _ => none)

/-- The ids targeted by the UpdateList intents of a run, in order. -/
def updateIds (is : List Intent) : List String :=
  is.filterMap (fun i => match i with | .update id _ _ => some id | _ => none)

/-- The side effects produced for one intent: rendered in test mode, a real
write followed by `time.sleep(1)` otherwise. -/
def realEffs : Intent → List Eff
  | .update _ l _ => [Eff.put l, Eff.sleep 1]
  | .create l _ => [Eff.post l, Eff.sleep 1]

section ScanLemmas

theorem scanLists_some (ne : List String) (ex : List FItem) (pre post : List FItem) (it : FItem)
    (h : scanLists ne ex = some (pre, it, post)) :
    ex = pre ++ it :: post ∧ it.entities.length < 50 ∧
      ne.filter (fun n => decide (n ∉ itemTexts it)) ≠ [] := by
  induction ex generalizing pre with
  | nil => simp [scanLists] at h
  | cons a rest ih =>
    rw [scanLists] at h
    split at h
    · rename_i hcond
      simp only [Option.some.injEq, Prod.mk.injEq] at h
      obtain ⟨h1, h2, h3⟩ := h
      subst h1; subst h2; subst h3
      exact ⟨rfl, hcond.1, hcond.2⟩
    · cases hscan : scanLists ne rest with
      | none => rw [hscan] at h; simp at h
      | some val =>
        obtain ⟨pre1, x, post1⟩ := val
        rw [hscan] at h
        simp only [Option.some.injEq, Prod.mk.injEq] at h
        obtain ⟨h1, h2, h3⟩ := h
        subst h2; subst h3
        obtain ⟨e1, e2, e3⟩ := ih pre1 hscan
        subst h1
        exact ⟨by rw [e1]; simp, e2, e3⟩

theorem scanLists_none (ne : List String) (ex : List FItem)
    (h : scanLists ne ex = none) :
    ∀ it ∈ ex, ¬(it.entities.length < 50 ∧
      ne.filter (fun n => decide (n ∉ itemTexts it)) ≠ []) := by
  induction ex with
  | nil => intro it hit; simp at hit
  | cons a rest ih =>
    rw [scanLists] at h
    split at h
    · simp at h
    · rename_i hcond
      intro it hit
      rcases List.mem_cons.mp hit with hit | hit
      · subst hit; exact hcond
      · cases hscan : scanLists ne rest with
        | none => exact ih hscan it hit
        | some val =>
          obtain ⟨pre1, x, post1⟩ := val
          rw [hscan] at h
          simp at h

end ScanLemmas

section TerminationLemmas

theorem filter_length_lt_of_mem {l : List String} {p : String → Bool} {x : String}
    (hx : x ∈ l) (hp : p x = false) : (l.filter p).length < l.length := by
  rw [List.length_filter_lt_length_iff_exists]
  exact ⟨x, hx, by simp [hp]⟩

/-- Each iteration of the packing loop removes at least one element of the
missing set. -/
theorem loopBody_missing_lt (objectType : String) (testMode : Bool)
    (ne : List String) (ex : List FItem) (c : Nat) (hne : ne ≠ []) :
    (loopBody objectType testMode ne ex c).missing.length < ne.length := by
  unfold loopBody
  cases hscan : scanLists ne ex with
  | some val =>
    obtain ⟨pre, it, post⟩ := val
    obtain ⟨hex, hroom, hfil⟩ := scanLists_some ne ex pre post it hscan
    simp only
    set filtered := ne.filter (fun n => decide (n ∉ itemTexts it)) with hfd
    obtain ⟨y, ys, hys⟩ := List.exists_cons_of_ne_nil hfil
    have hspace : 50 - it.entities.length = (50 - it.entities.length - 1) + 1 := by omega
    have hymem : y ∈ filtered.take (50 - it.entities.length) := by
      rw [hys, hspace, List.take_succ_cons]
      exact List.mem_cons_self y _
    have hyne : y ∈ ne := by
      have : y ∈ filtered := by rw [hys]; exact List.mem_cons_self y ys
      exact (List.mem_filter.mp this).1
    exact filter_length_lt_of_mem hyne (by simp [hymem])
  | none =>
    simp only [createStep]
    obtain ⟨y, ys, hys⟩ := List.exists_cons_of_ne_nil hne
    have hymem : y ∈ ne.take 50 := by
      rw [hys, show (50 : Nat) = 49 + 1 from rfl, List.take_succ_cons]
      exact List.mem_cons_self y _
    have hyne : y ∈ ne := by rw [hys]; exact List.mem_cons_self y ys
    exact filter_length_lt_of_mem hyne (by simp [hymem])

end TerminationLemmas

section UnfoldLemmas

theorem addEntriesGo_zero (objectType : String) (tm : Bool) (ne : List String)
    (ex : List FItem) (c : Nat) :
    addEntriesGo objectType tm 0 ne ex c = ⟨[], [], ex, c⟩ := by
  cases ne <;> rfl

theorem addEntriesGo_nil (objectType : String) (tm : Bool) (fuel : Nat)
    (ex : List FItem) (c : Nat) :
    addEntriesGo objectType tm fuel [] ex c = ⟨[], [], ex, c⟩ := by
  cases fuel <;> rfl

theorem addEntriesGo_cons (objectType : String) (tm : Bool) (fuel : Nat)
    (a : String) (t : List String) (ex : List FItem) (c : Nat) :
    addEntriesGo objectType tm (fuel + 1) (a :: t) ex c =
      let r := loopBody objectType tm (a :: t) ex c
      let rest := addEntriesGo objectType tm fuel r.missing r.existing r.count
      ⟨r.intent :: rest.intents, r.effs ++ rest.effs, rest.existing, rest.count⟩ := rfl

theorem syncLoop_nil (tm : Bool) (st : SyncState) :
    syncLoop tm [] st = ([], [], st) := rfl

theorem syncLoop_cons (tm : Bool) (objectType : String) (names : List String)
    (rest : List (String × List String)) (st : SyncState) :
    syncLoop tm ((objectType, names) :: rest) st =
      let p := processType tm st objectType names
      let q := syncLoop tm rest p.2.2
      (p.1 ++ q.1, p.2.1 ++ q.2.1, q.2.2) := rfl

end UnfoldLemmas

section CapacityLemmas

theorem loopBody_intent_le (objectType : String) (tm : Bool) (ne : List String)
    (ex : List FItem) (c : Nat) :
    (loopBody objectType tm ne ex c).intent.entities.length ≤ 50 := by
  unfold loopBody
  cases hscan : scanLists ne ex with
  | some val =>
    obtain ⟨pre, it, post⟩ := val
    obtain ⟨hex, hroom, hfil⟩ := scanLists_some ne ex pre post it hscan
    simp only [Intent.entities, List.length_append, List.length_map]
    have htake := List.length_take_le (50 - it.entities.length)
      (ne.filter (fun n => decide (n ∉ itemTexts it)))
    omega
  | none =>
    simp only [createStep, Intent.entities, List.length_map]
    have htake := List.length_take_le 50 ne
    omega

theorem addEntriesGo_intents_le (objectType : String) (tm : Bool) :
    ∀ fuel ne ex c, ∀ i ∈ (addEntriesGo objectType tm fuel ne ex c).intents,
      i.entities.length ≤ 50 := by
  intro fuel
  induction fuel with
  | zero =>
    intro ne ex c i hi
    rw [addEntriesGo_zero] at hi
    simp at hi
  | succ n ih =>
    intro ne ex c i hi
    cases ne with
    | nil =>
      rw [addEntriesGo_nil] at hi
      simp at hi
    | cons a t =>
      rw [addEntriesGo_cons] at hi
      simp only [List.mem_cons] at hi
      rcases hi with hi | hi
      · subst hi; exact loopBody_intent_le objectType tm (a :: t) ex c
      · exact ih _ _ _ i hi

theorem syncLoop_intents_le (tm : Bool) :
    ∀ jd st, ∀ i ∈ (syncLoop tm jd st).1, i.entities.length ≤ 50 := by
  intro jd
  induction jd with
  | nil => intro st i hi; rw [syncLoop_nil] at hi; simp at hi
  | cons hd rest ih =>
    obtain ⟨objectType, names⟩ := hd
    intro st i hi
    rw [syncLoop_cons] at hi
    simp only [List.mem_append] at hi
    rcases hi with hi | hi
    · exact addEntriesGo_intents_le objectType tm _ _ _ _ i hi
    · exact ih _ i hi

end CapacityLemmas

section EffectLemmas

/-- Per-intent side effects as a function of the dry-run flag. -/
def effsOfIntent (tm : Bool) (i : Intent) : List Eff :=
  if tm then [Eff.render i.label] else realEffs i

theorem loopBody_effs (objectType : String) (tm : Bool) (ne : List String)
    (ex : List FItem) (c : Nat) :
    (loopBody objectType tm ne ex c).effs =
      effsOfIntent tm (loopBody objectType tm ne ex c).intent := by
  unfold loopBody
  cases hscan : scanLists ne ex with
  | some val =>
    obtain ⟨pre, it, post⟩ := val
    cases tm <;> simp [effsOfIntent, realEffs, Intent.label]
  | none =>
    cases tm <;> simp [createStep, effsOfIntent, realEffs, Intent.label]

theorem addEntriesGo_effs (objectType : String) (tm : Bool) :
    ∀ fuel ne ex c, (addEntriesGo objectType tm fuel ne ex c).effs =
      (addEntriesGo objectType tm fuel ne ex c).intents.flatMap (effsOfIntent tm) := by
  intro fuel
  induction fuel with
  | zero => intro ne ex c; rw [addEntriesGo_zero]; rfl
  | succ n ih =>
    intro ne ex c
    cases ne with
    | nil => rw [addEntriesGo_nil]; rfl
    | cons a t =>
      rw [addEntriesGo_cons]
      simp only [List.flatMap_cons]
      rw [loopBody_effs, ih]

theorem processType_effs (tm : Bool) (st : SyncState) (objectType : String)
    (names : List String) :
    (processType tm st objectType names).2.1 =
      (processType tm st objectType names).1.flatMap (effsOfIntent tm) := by
  simp only [processType, addEntriesToFeedly]
  rw [addEntriesGo_effs]

theorem syncLoop_effs (tm : Bool) :
    ∀ jd st, (syncLoop tm jd st).2.1 = (syncLoop tm jd st).1.flatMap (effsOfIntent tm) := by
  intro jd
  induction jd with
  | nil => intro st; rfl
  | cons hd rest ih =>
    obtain ⟨objectType, names⟩ := hd
    intro st
    rw [syncLoop_cons]
    simp only [List.flatMap_append]
    rw [processType_effs, ih]

end EffectLemmas

/-- Claim C1: every UpdateList payload produced in `_add_entries_to_feedly` and
every CreateList payload produced in `_create_new_feedly_list` carries at most
50 entries, for every type group and every destination snapshot whose lists
each start with at most 50 entries. -/
theorem claim_C1_capacity_invariant (tm : Bool) (jd : List (String × List String))
    (fd : List FItem) (_hfd : ∀ it ∈ fd, it.entities.length ≤ 50) :
    ∀ i ∈ (syncToFeedly tm jd fd).1, i.entities.length ≤ 50 := by
  intro i hi
  exact syncLoop_intents_le tm jd _ i hi

theorem claim_C1_capacity_invariant_witness :
    (Intent.create "T-1" [mkEntry "a"]).entities.length ≤ 50 :=
  claim_C1_capacity_invariant true [("T", ["a"])] [] (by decide)
    (Intent.create "T-1" [mkEntry "a"]) (by decide)

/-- Claim C4: the packing loop of `_add_entries_to_feedly` terminates — for a
nonempty missing set, one iteration of the while loop strictly reduces its
size by at least one (an entry is packed into an existing list with room, or
placed into a newly created list); no iteration takes zero action. -/
theorem claim_C4_loop_termination (objectType : String) (tm : Bool)
    (ne : List String) (ex : List FItem) (c : Nat) (hne : ne ≠ []) :
    (loopBody objectType tm ne ex c).missing.length < ne.length :=
  loopBody_missing_lt objectType tm ne ex c hne

theorem claim_C4_loop_termination_witness :
    (loopBody "T" true ["a"] [] 0).missing.length < (["a"] : List String).length :=
  claim_C4_loop_termination "T" true ["a"] [] 0 (by decide)

/-- Claim C9: with dry-run (`test_mode`) enabled the pass only renders each
intent — no PUT, no POST and no pacing delay; with dry-run disabled each
update or create write is dispatched and followed by `time.sleep(1)`. -/
theorem claim_C9_dry_run_effects (jd : List (String × List String)) (fd : List FItem) :
    (syncToFeedly true jd fd).2.1 =
      (syncToFeedly true jd fd).1.map (fun i => Eff.render i.label) ∧
    (syncToFeedly false jd fd).2.1 = (syncToFeedly false jd fd).1.flatMap realEffs := by
  have htrue : effsOfIntent true = fun i => [Eff.render i.label] := by
    funext i; simp [effsOfIntent]
  have hfalse : effsOfIntent false = realEffs := by
    funext i; simp [effsOfIntent]
  have hsingle : ∀ (l : List Intent) (f : Intent → Eff),
      l.flatMap (fun i => [f i]) = l.map f := by
    intro l f
    induction l with
    | nil => rfl
    | cons a t ih => simp [List.flatMap_cons, ih]
  refine ⟨?_, ?_⟩
  · simp only [syncToFeedly]
    rw [syncLoop_effs, htrue, hsingle]
  · simp only [syncToFeedly]
    rw [syncLoop_effs, hfalse]

section SetAlgebraLemmas

theorem filter_not_mem_take_eq_drop {l : List String} (hl : l.Nodup) (k : Nat) :
    l.filter (fun x => decide (x ∉ l.take k)) = l.drop k := by
  induction l generalizing k with
  | nil => simp
  | cons a t ih =>
    cases k with
    | zero => simp [List.filter_eq_self]
    | succ k =>
      have ha : a ∉ t := (List.nodup_cons.mp hl).1
      have hnd := hl.of_cons
      simp only [List.take_succ_cons, List.drop_succ_cons]
      rw [List.filter_cons_of_neg (by simp)]
      rw [← ih hnd k]
      apply List.filter_congr
      intro x hx
      rw [decide_eq_decide]
      simp only [List.mem_cons]
      constructor
      · intro h hc
        exact h (Or.inr hc)
      · intro h hc
        rcases hc with hc | hc
        · exact ha (hc ▸ hx)
        · exact h hc

theorem take_disjoint_drop {l : List String} (hl : l.Nodup) (k : Nat) :
    ∀ x ∈ l.drop k, x ∉ l.take k := by
  have h := hl
  rw [← List.take_append_drop k l] at h
  have hd := (List.nodup_append.mp h).2.2
  intro x hx hxt
  exact hd hxt hx

theorem mem_haveTexts_of_mem {ex : List FItem} {it : FItem} {x : String}
    (hit : it ∈ ex) (hx : x ∈ itemTexts it) : x ∈ haveTexts ex :=
  List.mem_flatMap.mpr ⟨it, hit, hx⟩

theorem itemTexts_extend (it : FItem) (names : List String) :
    itemTexts { it with entities := it.entities ++ names.map mkEntry } =
      itemTexts it ++ names := by
  simp [itemTexts, mkEntry, Function.comp_def]

/-- With the missing set disjoint from every text already present, the
per-list set difference inside the scan is the whole missing set. -/
theorem filter_texts_eq_self {ne : List String} {ex : List FItem} {it : FItem}
    (hit : it ∈ ex) (hdisj : ∀ n ∈ ne, n ∉ haveTexts ex) :
    ne.filter (fun n => decide (n ∉ itemTexts it)) = ne := by
  rw [List.filter_eq_self]
  intro n hn
  simp only [decide_eq_true_eq]
  intro hmem
  exact hdisj n hn (mem_haveTexts_of_mem hit hmem)

theorem spareCapacity_append (a b : List FItem) :
    spareCapacity (a ++ b) = spareCapacity a + spareCapacity b := by
  simp [spareCapacity]

theorem spareCapacity_cons (it : FItem) (l : List FItem) :
    spareCapacity (it :: l) = (50 - it.entities.length) + spareCapacity l := by
  simp [spareCapacity]

/-- When the scan fails with a missing set disjoint from all present texts and
nonempty, every existing list is full, so the total spare capacity is zero. -/
theorem spareCapacity_eq_zero_of_scan_none {ne : List String} {ex : List FItem}
    (hne : ne ≠ []) (hdisj : ∀ n ∈ ne, n ∉ haveTexts ex)
    (hscan : scanLists ne ex = none) : spareCapacity ex = 0 := by
  apply List.sum_eq_zero
  intro x hx
  rw [List.mem_map] at hx
  obtain ⟨it, hit, hxe⟩ := hx
  have h := scanLists_none ne ex hscan it hit
  rw [filter_texts_eq_self hit hdisj] at h
  have : ¬ it.entities.length < 50 := by
    intro hlt
    exact h ⟨hlt, hne⟩
  omega

end SetAlgebraLemmas

section LoopCharacterization

/-- Under the invariant that the missing set is disjoint from every text
already present, a successful scan packs `min(space_left, |missing|)` entries
into the found list and the new missing set is the corresponding drop. -/
theorem loopBody_some_char (objectType : String) (tm : Bool) {ne : List String}
    {ex pre post : List FItem} {it : FItem} (c : Nat)
    (hscan : scanLists ne ex = some (pre, it, post))
    (hdisj : ∀ n ∈ ne, n ∉ haveTexts ex) (hnd : ne.Nodup) :
    loopBody objectType tm ne ex c =
      { intent := Intent.update it.id it.label
          (it.entities ++ (ne.take (50 - it.entities.length)).map mkEntry),
        effs := if tm then [Eff.render it.label] else [Eff.put it.label, Eff.sleep 1],
        missing := ne.drop (50 - it.entities.length),
        existing := pre ++
          { it with entities := it.entities ++ (ne.take (50 - it.entities.length)).map mkEntry }
          :: post,
        count := c } := by
  have hex := scanLists_some ne ex pre post it hscan
  have hit : it ∈ ex := by rw [hex.1]; simp
  have hfeq := filter_texts_eq_self hit hdisj
  unfold loopBody
  rw [hscan]
  simp only [hfeq, filter_not_mem_take_eq_drop hnd]

/-- When the scan fails, `_create_new_feedly_list` takes the first 50 missing
entries into a fresh list labelled with the bumped count. -/
theorem loopBody_none_char (objectType : String) (tm : Bool) {ne : List String}
    {ex : List FItem} (c : Nat) (hscan : scanLists ne ex = none) (hnd : ne.Nodup) :
    loopBody objectType tm ne ex c =
      { intent := Intent.create (objectType ++ "-" ++ toString (c + 1))
          ((ne.take 50).map mkEntry),
        effs := if tm then [Eff.render (objectType ++ "-" ++ toString (c + 1))]
          else [Eff.post (objectType ++ "-" ++ toString (c + 1)), Eff.sleep 1],
        missing := ne.drop 50, existing := ex, count := c + 1 } := by
  unfold loopBody
  rw [hscan]
  simp only [createStep, filter_not_mem_take_eq_drop hnd]

/-- Packing a prefix of the missing set into one of the existing lists keeps
the rest of the missing set disjoint from every present text. -/
theorem disj_after_update {ne : List String} {ex pre post : List FItem} {it : FItem}
    (hex : ex = pre ++ it :: post) (hnd : ne.Nodup)
    (hdisj : ∀ n ∈ ne, n ∉ haveTexts ex) (k : Nat) :
    ∀ m ∈ ne.drop k, m ∉ haveTexts (pre ++
      { it with entities := it.entities ++ (ne.take k).map mkEntry } :: post) := by
  intro m hm hmem
  have hmne : m ∈ ne := List.mem_of_mem_drop hm
  obtain ⟨b, hb, hmb⟩ := List.mem_flatMap.mp hmem
  rcases List.mem_append.mp hb with hb | hb
  · exact hdisj m hmne (mem_haveTexts_of_mem (by rw [hex]; exact List.mem_append_left _ hb) hmb)
  · rcases List.mem_cons.mp hb with hb | hb
    · subst hb
      rw [itemTexts_extend] at hmb
      rcases List.mem_append.mp hmb with h | h
      · exact hdisj m hmne (mem_haveTexts_of_mem (by rw [hex]; simp) h)
      · exact take_disjoint_drop hnd k m hm h
    · exact hdisj m hmne (mem_haveTexts_of_mem (by rw [hex]; simp [hb]) hmb)

end LoopCharacterization

section CreateCountLemmas

theorem countCreates_update (id l : String) (es : List Entity) (is : List Intent) :
    countCreates (Intent.update id l es :: is) = countCreates is := by
  simp [countCreates, List.filter_cons]

theorem countCreates_create (l : String) (es : List Entity) (is : List Intent) :
    countCreates (Intent.create l es :: is) = countCreates is + 1 := by
  simp [countCreates, List.filter_cons]

theorem addEntriesGo_countCreates (objectType : String) (tm : Bool) :
    ∀ fuel ne ex c, ne.length ≤ fuel → ne.Nodup →
      (∀ n ∈ ne, n ∉ haveTexts ex) →
      countCreates (addEntriesGo objectType tm fuel ne ex c).intents =
        (ne.length - spareCapacity ex + 49) / 50 := by
  intro fuel
  induction fuel with
  | zero =>
    intro ne ex c hlen hnd hdisj
    have hnil : ne = [] := List.eq_nil_of_length_eq_zero (Nat.le_zero.mp hlen)
    subst hnil
    rw [addEntriesGo_zero]
    show countCreates [] = (0 - spareCapacity ex + 49) / 50
    rw [show countCreates [] = 0 from rfl]
    omega
  | succ n ih =>
    intro ne ex c hlen hnd hdisj
    cases ne with
    | nil =>
      rw [addEntriesGo_nil]
      show countCreates [] = (0 - spareCapacity ex + 49) / 50
      rw [show countCreates [] = 0 from rfl]
      omega
    | cons a t =>
      rw [addEntriesGo_cons]
      cases hscan : scanLists (a :: t) ex with
      | some val =>
        obtain ⟨pre, it, post⟩ := val
        have hex := scanLists_some _ _ _ _ _ hscan
        have hroom : it.entities.length < 50 := hex.2.1
        rw [loopBody_some_char objectType tm c hscan hdisj hnd]
        simp only
        rw [countCreates_update]
        set ne := a :: t with hnedef
        set space := 50 - it.entities.length with hspacedef
        have hlen2 : (ne.drop space).length ≤ n := by
          rw [List.length_drop]
          have : 1 ≤ space := by omega
          have : 1 ≤ ne.length := by rw [hnedef]; simp
          omega
        have hnd2 : (ne.drop space).Nodup :=
          List.Nodup.sublist (List.drop_sublist space ne) hnd
        have hdisj2 := disj_after_update hex.1 hnd hdisj space
        rw [ih (ne.drop space) _ c hlen2 hnd2 hdisj2]
        have hm : (ne.take space).length = min space ne.length := List.length_take space ne
        have hsp : spareCapacity ex =
            spareCapacity pre + (50 - it.entities.length) + spareCapacity post := by
          rw [hex.1, spareCapacity_append, spareCapacity_cons]
          omega
        have hsp2 : spareCapacity (pre ++
            { it with entities := it.entities ++ (ne.take space).map mkEntry } :: post) =
            spareCapacity pre + (50 - (it.entities.length + (ne.take space).length)) +
              spareCapacity post := by
          rw [spareCapacity_append, spareCapacity_cons]
          simp only [List.length_append, List.length_map]
          omega
        rw [List.length_drop, hsp2, hm]
        omega
      | none =>
        rw [loopBody_none_char objectType tm c hscan hnd]
        simp only
        rw [countCreates_create]
        set ne := a :: t with hnedef
        have hzero : spareCapacity ex = 0 :=
          spareCapacity_eq_zero_of_scan_none (by rw [hnedef]; simp) hdisj hscan
        have hlen2 : (ne.drop 50).length ≤ n := by
          rw [List.length_drop]
          have : 1 ≤ ne.length := by rw [hnedef]; simp
          omega
        have hnd2 : (ne.drop 50).Nodup :=
          List.Nodup.sublist (List.drop_sublist 50 ne) hnd
        have hdisj2 : ∀ m ∈ ne.drop 50, m ∉ haveTexts ex := fun m hm =>
          hdisj m (List.mem_of_mem_drop hm)
        rw [ih (ne.drop 50) ex (c + 1) hlen2 hnd2 hdisj2]
        rw [List.length_drop, hzero]
        have : 1 ≤ ne.length := by rw [hnedef]; simp
        omega

end CreateCountLemmas

/-- Claim C2: for every type, label set and destination snapshot, the number
of CreateList intents equals `ceil(max(0, missing - totalSpareCapacity) / 50)`
where `missing` is the label set minus the union of texts over the existing
lists whose label starts with the type, and spare capacity sums
`max(0, 50 - len(entries))` over those lists. -/
theorem claim_C2_minimal_creates (tm : Bool) (objectType : String)
    (names : List String) (fd : List FItem) :
    countCreates (syncToFeedly tm [(objectType, names)] fd).1 =
      ((names.dedup.filter (fun n =>
          decide (n ∉ haveTexts (fd.filter (fun it => strStartsWith it.label objectType))))).length
        - spareCapacity (fd.filter (fun it => strStartsWith it.label objectType)) + 49) / 50 := by
  simp only [syncToFeedly]
  rw [syncLoop_cons]
  simp only [syncLoop_nil, List.append_nil]
  simp only [processType, addEntriesToFeedly]
  apply addEntriesGo_countCreates
  · exact Nat.le_refl _
  · exact List.Nodup.filter _ (List.nodup_dedup names)
  · intro n hn
    have := (List.mem_filter.mp hn).2
    exact of_decide_eq_true this

section CreateLabelLemmas

theorem createLabels_update (id l : String) (es : List Entity) (is : List Intent) :
    createLabels (Intent.update id l es :: is) = createLabels is := by
  simp [createLabels]

theorem createLabels_create (l : String) (es : List Entity) (is : List Intent) :
    createLabels (Intent.create l es :: is) = l :: createLabels is := by
  simp [createLabels]

theorem cons_label_range (T : String) (c M : Nat) :
    (T ++ "-" ++ toString (c + 1)) ::
      (List.range M).map (fun k => T ++ "-" ++ toString (c + 1 + k + 1)) =
      (0 :: (List.range M).map (fun k => k + 1)).map
        (fun k => T ++ "-" ++ toString (c + k + 1)) := by
  simp only [List.map_cons, List.map_map]
  congr 1
  apply List.map_congr_left
  intro k hk
  simp only [Function.comp_apply]
  have h : c + 1 + k + 1 = c + (k + 1) + 1 := by omega
  rw [h]

theorem addEntriesGo_createLabels (objectType : String) (tm : Bool) :
    ∀ fuel ne ex c,
      createLabels (addEntriesGo objectType tm fuel ne ex c).intents =
        (List.range (countCreates (addEntriesGo objectType tm fuel ne ex c).intents)).map
          (fun k => objectType ++ "-" ++ toString (c + k + 1)) := by
  intro fuel
  induction fuel with
  | zero =>
    intro ne ex c
    rw [addEntriesGo_zero]
    rfl
  | succ n ih =>
    intro ne ex c
    cases ne with
    | nil => rw [addEntriesGo_nil]; rfl
    | cons a t =>
      rw [addEntriesGo_cons]
      cases hscan : scanLists (a :: t) ex with
      | some val =>
        obtain ⟨pre, it, post⟩ := val
        simp only [loopBody, hscan]
        rw [createLabels_update, countCreates_update]
        exact ih _ _ _
      | none =>
        simp only [loopBody, hscan, createStep]
        rw [createLabels_create, countCreates_create]
        rw [ih _ _ (c + 1)]
        rw [List.range_succ_eq_map]
        exact cons_label_range objectType c _

end CreateLabelLemmas

/-- Claim C3 counterexample: the destination holds one full list labelled
"T-2" (the only list with prefix "T", so `list_counts["T"] = 1`); the label
synthesized for the overflow of "x" is again "T-2", colliding with the label
already present in the snapshot. -/
theorem claim_C3_label_collision_counterexample :
    createLabels (syncToFeedly true [("T", ["x"])]
        [⟨"id1", "T-2", (List.range 50).map (fun i => mkEntry (toString i))⟩]).1 =
      ["T-2"] ∧
    (⟨"id1", "T-2", (List.range 50).map (fun i => mkEntry (toString i))⟩ : FItem).label
      = "T-2" := by
  constructor
  · decide
  · rfl

/-- Claim C3 (amended): the labels synthesized for CreateList intents of a
type strictly increment by one starting from one above the number of distinct
labels in the snapshot that have the type as a prefix (the code counts lists,
it does not inspect numeric suffixes, so a synthesized label can coincide
with an existing label whose suffix exceeds the count). -/
theorem claim_C3_amended_label_sequence (tm : Bool) (objectType : String)
    (names : List String) (fd : List FItem) :
    createLabels (syncToFeedly tm [(objectType, names)] fd).1 =
      (List.range (countCreates (syncToFeedly tm [(objectType, names)] fd).1)).map
        (fun k => objectType ++ "-" ++ toString (listCount fd objectType + k + 1)) := by
  simp only [syncToFeedly]
  rw [syncLoop_cons]
  simp only [syncLoop_nil, List.append_nil]
  simp only [processType, addEntriesToFeedly]
  exact addEntriesGo_createLabels objectType tm _ _ _ _

section NodupLemmas

theorem addEntriesGo_texts_nodup (objectType : String) (tm : Bool) :
    ∀ fuel ne ex c, ne.Nodup → (∀ n ∈ ne, n ∉ haveTexts ex) →
      (∀ it ∈ ex, (itemTexts it).Nodup) →
      (∀ i ∈ (addEntriesGo objectType tm fuel ne ex c).intents,
        (i.entities.map (fun e => e.text)).Nodup) ∧
      (∀ it ∈ (addEntriesGo objectType tm fuel ne ex c).existing,
        (itemTexts it).Nodup) := by
  intro fuel
  induction fuel with
  | zero =>
    intro ne ex c hnd hdisj hex
    rw [addEntriesGo_zero]
    exact ⟨by intro i hi; simp at hi, hex⟩
  | succ n ih =>
    intro ne ex c hnd hdisj hex
    cases ne with
    | nil =>
      rw [addEntriesGo_nil]
      exact ⟨by intro i hi; simp at hi, hex⟩
    | cons a t =>
      rw [addEntriesGo_cons]
      cases hscan : scanLists (a :: t) ex with
      | some val =>
        obtain ⟨pre, it, post⟩ := val
        have hexdec := scanLists_some _ _ _ _ _ hscan
        rw [loopBody_some_char objectType tm c hscan hdisj hnd]
        simp only
        set ne := a :: t
        set space := 50 - it.entities.length with hspacedef
        set it2 : FItem :=
          { it with entities := it.entities ++ (ne.take space).map mkEntry } with hit2
        have hitmem : it ∈ ex := by rw [hexdec.1]; simp
        have hit2texts : (itemTexts it2).Nodup := by
          rw [hit2, itemTexts_extend]
          apply List.Nodup.append (hex it hitmem)
            (List.Nodup.sublist (List.take_sublist space ne) hnd)
          intro x hx1 hx2
          exact hdisj x (List.mem_of_mem_take hx2) (mem_haveTexts_of_mem hitmem hx1)
        have hexall : ∀ b ∈ pre ++ it2 :: post, (itemTexts b).Nodup := by
          intro b hb
          rcases List.mem_append.mp hb with hb | hb
          · exact hex b (by rw [hexdec.1]; exact List.mem_append_left _ hb)
          · rcases List.mem_cons.mp hb with hb | hb
            · rw [hb]; exact hit2texts
            · exact hex b (by rw [hexdec.1]; simp [hb])
        have hrec := ih (ne.drop space) (pre ++ it2 :: post) c
          (List.Nodup.sublist (List.drop_sublist space ne) hnd)
          (disj_after_update hexdec.1 hnd hdisj space) hexall
        refine ⟨?_, hrec.2⟩
        intro i hi
        rcases List.mem_cons.mp hi with hi | hi
        · rw [hi]
          show ((it.entities ++ (ne.take space).map mkEntry).map (fun e => e.text)).Nodup
          have : (it.entities ++ (ne.take space).map mkEntry).map (fun e => e.text) =
              itemTexts it2 := by rw [hit2]; rfl
          rw [this]
          exact hit2texts
        · exact hrec.1 i hi
      | none =>
        rw [loopBody_none_char objectType tm c hscan hnd]
        simp only
        set ne := a :: t
        have hrec := ih (ne.drop 50) ex (c + 1)
          (List.Nodup.sublist (List.drop_sublist 50 ne) hnd)
          (fun m hm => hdisj m (List.mem_of_mem_drop hm)) hex
        refine ⟨?_, hrec.2⟩
        intro i hi
        rcases List.mem_cons.mp hi with hi | hi
        · rw [hi]
          show (((ne.take 50).map mkEntry).map (fun e => e.text)).Nodup
          have : ((ne.take 50).map mkEntry).map (fun e => e.text) = ne.take 50 := by
            simp [mkEntry, Function.comp_def]
          rw [this]
          exact List.Nodup.sublist (List.take_sublist 50 ne) hnd
        · exact hrec.1 i hi

theorem mergeBack_cons (p : FItem → Bool) (a : FItem) (rest upd : List FItem) :
    mergeBack p (a :: rest) upd =
      if p a then
        match upd with
        | [] => a :: mergeBack p rest []
        | u :: us => u :: mergeBack p rest us
      else a :: mergeBack p rest upd := rfl

theorem mergeBack_mem {p : FItem → Bool} :
    ∀ st upd (x : FItem), x ∈ mergeBack p st upd → x ∈ st ∨ x ∈ upd := by
  intro st
  induction st with
  | nil => intro upd x hx; simp [mergeBack] at hx
  | cons a rest ih =>
    intro upd x hx
    rw [mergeBack_cons] at hx
    by_cases hp : p a
    · rw [if_pos hp] at hx
      cases upd with
      | nil =>
        rcases List.mem_cons.mp hx with hx | hx
        · exact Or.inl (by simp [hx])
        · rcases ih [] x hx with h | h
          · exact Or.inl (List.mem_cons_of_mem _ h)
          · simp at h
      | cons u us =>
        rcases List.mem_cons.mp hx with hx | hx
        · exact Or.inr (by simp [hx])
        · rcases ih us x hx with h | h
          · exact Or.inl (List.mem_cons_of_mem _ h)
          · exact Or.inr (List.mem_cons_of_mem _ h)
    · rw [if_neg hp] at hx
      rcases List.mem_cons.mp hx with hx | hx
      · exact Or.inl (by simp [hx])
      · rcases ih upd x hx with h | h
        · exact Or.inl (List.mem_cons_of_mem _ h)
        · exact Or.inr h

theorem syncLoop_texts_nodup (tm : Bool) :
    ∀ jd st, (∀ it ∈ st.snapshot, (itemTexts it).Nodup) →
      ∀ i ∈ (syncLoop tm jd st).1, (i.entities.map (fun e => e.text)).Nodup := by
  intro jd
  induction jd with
  | nil => intro st hst i hi; rw [syncLoop_nil] at hi; simp at hi
  | cons hd rest ih =>
    obtain ⟨objectType, names⟩ := hd
    intro st hst i hi
    rw [syncLoop_cons] at hi
    simp only [List.mem_append] at hi
    have hex : ∀ it ∈ st.snapshot.filter (fun it => strStartsWith it.label objectType),
        (itemTexts it).Nodup := fun it hit => hst it (List.mem_of_mem_filter hit)
    have hne : (names.dedup.filter (fun n => decide (n ∉ haveTexts
        (st.snapshot.filter (fun it => strStartsWith it.label objectType))))).Nodup :=
      List.Nodup.filter _ (List.nodup_dedup names)
    have hdisj : ∀ n ∈ names.dedup.filter (fun n => decide (n ∉ haveTexts
        (st.snapshot.filter (fun it => strStartsWith it.label objectType)))),
        n ∉ haveTexts (st.snapshot.filter (fun it => strStartsWith it.label objectType)) :=
      fun n hn => of_decide_eq_true (List.mem_filter.mp hn).2
    have hgo := addEntriesGo_texts_nodup objectType tm
      (names.dedup.filter (fun n => decide (n ∉ haveTexts
        (st.snapshot.filter (fun it => strStartsWith it.label objectType))))).length
      (names.dedup.filter (fun n => decide (n ∉ haveTexts
        (st.snapshot.filter (fun it => strStartsWith it.label objectType)))))
      (st.snapshot.filter (fun it => strStartsWith it.label objectType))
      (st.counts objectType) hne hdisj hex
    rcases hi with hi | hi
    · exact hgo.1 i hi
    · apply ih _ _ i hi
      intro it hit
      rcases mergeBack_mem _ _ it hit with h | h
      · exact hst it h
      · exact hgo.2 it h

end NodupLemmas

/-- Claim C8: within any single emitted intent the entry texts are pairwise
distinct — an UpdateList payload has no duplicate text given the list's
pre-existing entries had distinct texts, and a CreateList payload has no
duplicate text, for every type group and destination snapshot. -/
theorem claim_C8_no_duplicate_texts (tm : Bool) (jd : List (String × List String))
    (fd : List FItem) (hfd : ∀ it ∈ fd, (itemTexts it).Nodup) :
    ∀ i ∈ (syncToFeedly tm jd fd).1, (i.entities.map (fun e => e.text)).Nodup := by
  intro i hi
  exact syncLoop_texts_nodup tm jd ⟨fd, fun t => listCount fd t⟩ hfd i hi

theorem claim_C8_no_duplicate_texts_witness :
    (((Intent.create "T-1" [mkEntry "a", mkEntry "b"]).entities).map
      (fun e => e.text)).Nodup :=
  claim_C8_no_duplicate_texts true [("T", ["a", "b"])] [] (by simp)
    (Intent.create "T-1" [mkEntry "a", mkEntry "b"]) (by decide)

section UpdateTargetLemmas

theorem updateIds_update (id l : String) (es : List Entity) (is : List Intent) :
    updateIds (Intent.update id l es :: is) = id :: updateIds is := by
  simp [updateIds]

theorem updateIds_create (l : String) (es : List Entity) (is : List Intent) :
    updateIds (Intent.create l es :: is) = updateIds is := by
  simp [updateIds]

/-- Every UpdateList intent of a run targets (the id of) a list that was in
the incoming existing set with room left at some point of the run. -/
theorem addEntriesGo_updateIds_mem (objectType : String) (tm : Bool) :
    ∀ fuel ne ex c, ∀ i ∈ updateIds (addEntriesGo objectType tm fuel ne ex c).intents,
      ∃ it ∈ ex, it.id = i ∧ it.entities.length < 50 := by
  intro fuel
  induction fuel with
  | zero =>
    intro ne ex c i hi
    rw [addEntriesGo_zero] at hi
    simp [updateIds] at hi
  | succ n ih =>
    intro ne ex c i hi
    cases ne with
    | nil =>
      rw [addEntriesGo_nil] at hi
      simp [updateIds] at hi
    | cons a t =>
      rw [addEntriesGo_cons] at hi
      cases hscan : scanLists (a :: t) ex with
      | some val =>
        obtain ⟨pre, it, post⟩ := val
        have hexdec := scanLists_some _ _ _ _ _ hscan
        simp only [loopBody, hscan] at hi
        rw [updateIds_update] at hi
        rcases List.mem_cons.mp hi with hi | hi
        · exact ⟨it, by rw [hexdec.1]; simp, hi.symm, hexdec.2.1⟩
        · obtain ⟨it2, hit2, hid2, hlen2⟩ := ih _ _ _ i hi
          rcases List.mem_append.mp hit2 with h | h
          · exact ⟨it2, by rw [hexdec.1]; exact List.mem_append_left _ h, hid2, hlen2⟩
          · rcases List.mem_cons.mp h with h | h
            · refine ⟨it, by rw [hexdec.1]; simp, ?_, hexdec.2.1⟩
              rw [← hid2, h]
            · exact ⟨it2, by rw [hexdec.1]; simp [h], hid2, hlen2⟩
      | none =>
        simp only [loopBody, hscan, createStep] at hi
        rw [updateIds_create] at hi
        exact ih _ _ _ i hi

/-- Under the sync invariants, the UpdateList targets of one type's run are
pairwise distinct and all lie in the incoming existing set. -/
theorem addEntriesGo_updateIds_nodup (objectType : String) (tm : Bool) :
    ∀ fuel ne ex c, ne.Nodup → (∀ n ∈ ne, n ∉ haveTexts ex) →
      ((ex.map (fun it => it.id)).Nodup) →
      (updateIds (addEntriesGo objectType tm fuel ne ex c).intents).Nodup ∧
      ∀ i ∈ updateIds (addEntriesGo objectType tm fuel ne ex c).intents,
        i ∈ ex.map (fun it => it.id) := by
  intro fuel
  induction fuel with
  | zero =>
    intro ne ex c hnd hdisj hids
    rw [addEntriesGo_zero]
    exact ⟨by simp [updateIds], by intro i hi; simp [updateIds] at hi⟩
  | succ n ih =>
    intro ne ex c hnd hdisj hids
    cases ne with
    | nil =>
      rw [addEntriesGo_nil]
      exact ⟨by simp [updateIds], by intro i hi; simp [updateIds] at hi⟩
    | cons a t =>
      rw [addEntriesGo_cons]
      cases hscan : scanLists (a :: t) ex with
      | some val =>
        obtain ⟨pre, it, post⟩ := val
        have hexdec := scanLists_some _ _ _ _ _ hscan
        rw [loopBody_some_char objectType tm c hscan hdisj hnd]
        simp only
        set ne := a :: t
        set space := 50 - it.entities.length with hspacedef
        set it2 : FItem :=
          { it with entities := it.entities ++ (ne.take space).map mkEntry } with hit2
        have hidseq : (pre ++ it2 :: post).map (fun x => x.id) =
            ex.map (fun x => x.id) := by
          rw [hexdec.1]
          simp [hit2]
        have hrec := ih (ne.drop space) (pre ++ it2 :: post) c
          (List.Nodup.sublist (List.drop_sublist space ne) hnd)
          (disj_after_update hexdec.1 hnd hdisj space)
          (by rw [hidseq]; exact hids)
        rw [updateIds_update]
        constructor
        · rw [List.nodup_cons]
          refine ⟨?_, hrec.1⟩
          intro hmem
          obtain ⟨it3, hit3, hid3, hlen3⟩ :=
            addEntriesGo_updateIds_mem objectType tm n _ _ c it.id hmem
          have hexids : (ex.map (fun x => x.id)).Nodup := hids
          rw [hexdec.1] at hexids
          simp only [List.map_append, List.map_cons] at hexids
          have hsplit := List.nodup_append.mp hexids
          rcases List.mem_append.mp hit3 with h | h
          · exact hsplit.2.2 (List.mem_map.mpr ⟨it3, h, hid3⟩) (List.mem_cons_self _ _)
          · rcases List.mem_cons.mp h with h | h
            · -- it3 is the updated list itself: it must still have room
              rw [h] at hlen3
              have hlen2 : it2.entities.length =
                  it.entities.length + (ne.take space).length := by
                rw [hit2]
                simp
              have hm : (ne.take space).length = min space ne.length :=
                List.length_take space ne
              by_cases hle : space ≤ ne.length
              · omega
              · -- the missing set was exhausted, so the recursion saw no entries
                have hdropnil : ne.drop space = [] :=
                  List.drop_eq_nil_of_le (by omega)
                rw [hdropnil, addEntriesGo_nil] at hmem
                simp [updateIds] at hmem
            · have : it.id ∈ post.map (fun x => x.id) := List.mem_map.mpr ⟨it3, h, hid3⟩
              have hnocons := hsplit.2.1
              rw [List.nodup_cons] at hnocons
              exact hnocons.1 this
        · intro i hi
          rcases List.mem_cons.mp hi with hi | hi
          · rw [hi, hexdec.1]
            simp
          · rw [← hidseq]
            exact hrec.2 i hi
      | none =>
        rw [loopBody_none_char objectType tm c hscan hnd]
        simp only
        set ne := a :: t
        have hrec := ih (ne.drop 50) ex (c + 1)
          (List.Nodup.sublist (List.drop_sublist 50 ne) hnd)
          (fun m hm => hdisj m (List.mem_of_mem_drop hm)) hids
        rw [updateIds_create]
        exact hrec

end UpdateTargetLemmas

/-- Claim C10: during the reconciliation of a single type, each existing list
is the target of at most one UpdateList intent, and every UpdateList intent
targets a list that was already present in the snapshot (lists created within
the run are never updated in the same run). -/
theorem claim_C10_single_update_per_list (tm : Bool) (objectType : String)
    (names : List String) (fd : List FItem)
    (hids : (fd.map (fun it => it.id)).Nodup) :
    (updateIds (syncToFeedly tm [(objectType, names)] fd).1).Nodup ∧
    ∀ i ∈ updateIds (syncToFeedly tm [(objectType, names)] fd).1,
      i ∈ (fd.filter (fun it => strStartsWith it.label objectType)).map
        (fun it => it.id) := by
  simp only [syncToFeedly]
  rw [syncLoop_cons]
  simp only [syncLoop_nil, List.append_nil]
  simp only [processType, addEntriesToFeedly]
  apply addEntriesGo_updateIds_nodup
  · exact List.Nodup.filter _ (List.nodup_dedup names)
  · intro n hn
    exact of_decide_eq_true (List.mem_filter.mp hn).2
  · exact List.Nodup.sublist
      (List.Sublist.map (fun it => it.id) (List.filter_sublist fd)) hids

theorem claim_C10_single_update_per_list_witness :
    (updateIds (syncToFeedly true [("T", ["x"])]
      [⟨"i1", "T-1", [mkEntry "y"]⟩]).1).Nodup ∧
    ∀ i ∈ updateIds (syncToFeedly true [("T", ["x"])]
      [⟨"i1", "T-1", [mkEntry "y"]⟩]).1,
      i ∈ (([⟨"i1", "T-1", [mkEntry "y"]⟩] : List FItem).filter
        (fun it => strStartsWith it.label "T")).map (fun it => it.id) :=
  claim_C10_single_update_per_list true "T" ["x"] [⟨"i1", "T-1", [mkEntry "y"]⟩]
    (by decide)

section GrowthLemmas

/-- In-place mutation only appends entities and never touches id or label. -/
def Grows (a b : FItem) : Prop :=
  b.id = a.id ∧ b.label = a.label ∧ ∃ ext, b.entities = a.entities ++ ext

theorem Grows.refl (a : FItem) : Grows a a := ⟨rfl, rfl, [], by simp⟩

theorem Grows.trans {a b c : FItem} (h1 : Grows a b) (h2 : Grows b c) : Grows a c := by
  obtain ⟨i1, l1, e1, he1⟩ := h1
  obtain ⟨i2, l2, e2, he2⟩ := h2
  exact ⟨i2.trans i1, l2.trans l1, e1 ++ e2, by rw [he2, he1, List.append_assoc]⟩

theorem Grows.texts_mono {a b : FItem} (h : Grows a b) :
    ∀ x ∈ itemTexts a, x ∈ itemTexts b := by
  intro x hx
  obtain ⟨_, _, ext, he⟩ := h
  unfold itemTexts at hx ⊢
  rw [he, List.map_append]
  exact List.mem_append_left _ hx

theorem forall2_grows_refl : ∀ l : List FItem, List.Forall₂ Grows l l := by
  intro l
  induction l with
  | nil => exact List.Forall₂.nil
  | cons a t ih => exact List.Forall₂.cons (Grows.refl a) ih

theorem forall2_grows_trans : ∀ {a b c : List FItem},
    List.Forall₂ Grows a b → List.Forall₂ Grows b c → List.Forall₂ Grows a c := by
  intro a
  induction a with
  | nil =>
    intro b c h1 h2
    cases h1
    cases h2
    exact List.Forall₂.nil
  | cons x xs ih =>
    intro b c h1 h2
    cases h1 with
    | cons hx hxs =>
      cases h2 with
      | cons hy hys => exact List.Forall₂.cons (hx.trans hy) (ih hxs hys)

theorem forall2_grows_append : ∀ {a b c d : List FItem},
    List.Forall₂ Grows a b → List.Forall₂ Grows c d →
      List.Forall₂ Grows (a ++ c) (b ++ d) := by
  intro a
  induction a with
  | nil =>
    intro b c d h1 h2
    cases h1
    exact h2
  | cons x xs ih =>
    intro b c d h1 h2
    cases h1 with
    | cons hx hxs => exact List.Forall₂.cons hx (ih hxs h2)

theorem forall2_mem_left {l l' : List FItem} (h : List.Forall₂ Grows l l') :
    ∀ a ∈ l, ∃ b ∈ l', Grows a b := by
  induction h with
  | nil => intro a ha; simp at ha
  | cons hx hxs ih =>
    intro a ha
    rcases List.mem_cons.mp ha with ha | ha
    · exact ⟨_, List.mem_cons_self _ _, ha ▸ hx⟩
    · obtain ⟨b, hb, hgb⟩ := ih a ha
      exact ⟨b, List.mem_cons_of_mem _ hb, hgb⟩

theorem forall2_mem_right {l l' : List FItem} (h : List.Forall₂ Grows l l') :
    ∀ b ∈ l', ∃ a ∈ l, Grows a b := by
  induction h with
  | nil => intro b hb; simp at hb
  | cons hx hxs ih =>
    intro b hb
    rcases List.mem_cons.mp hb with hb | hb
    · exact ⟨_, List.mem_cons_self _ _, hb ▸ hx⟩
    · obtain ⟨a, ha, hga⟩ := ih b hb
      exact ⟨a, List.mem_cons_of_mem _ ha, hga⟩

/-- The packing loop only grows the existing lists in place. -/
theorem addEntriesGo_grows (objectType : String) (tm : Bool) :
    ∀ fuel ne ex c, List.Forall₂ Grows ex (addEntriesGo objectType tm fuel ne ex c).existing := by
  intro fuel
  induction fuel with
  | zero => intro ne ex c; rw [addEntriesGo_zero]; exact forall2_grows_refl ex
  | succ n ih =>
    intro ne ex c
    cases ne with
    | nil => rw [addEntriesGo_nil]; exact forall2_grows_refl ex
    | cons a t =>
      rw [addEntriesGo_cons]
      cases hscan : scanLists (a :: t) ex with
      | some val =>
        obtain ⟨pre, it, post⟩ := val
        have hexdec := scanLists_some _ _ _ _ _ hscan
        simp only [loopBody, hscan]
        refine forall2_grows_trans ?_ (ih _ _ _)
        rw [hexdec.1]
        apply forall2_grows_append (forall2_grows_refl pre)
        exact List.Forall₂.cons ⟨rfl, rfl, _, rfl⟩ (forall2_grows_refl post)
      | none =>
        simp only [loopBody, hscan, createStep]
        exact ih _ _ _

end GrowthLemmas

section MergeBackLemmas

theorem mergeBack_self (p : FItem → Bool) : ∀ st, mergeBack p st (st.filter p) = st := by
  intro st
  induction st with
  | nil => rfl
  | cons a rest ih =>
    rw [List.filter_cons, mergeBack_cons]
    by_cases hp : p a
    · rw [if_pos hp, if_pos hp]
      simp only
      rw [ih]
    · simp only [if_neg hp]
      rw [ih]

/-- The merged snapshot pointwise grows the original snapshot whenever the
updated view pointwise grows the filtered view. -/
theorem mergeBack_grows (p : FItem → Bool) :
    ∀ st upd, List.Forall₂ Grows (st.filter p) upd →
      List.Forall₂ Grows st (mergeBack p st upd) := by
  intro st
  induction st with
  | nil => intro upd h; exact List.Forall₂.nil
  | cons a rest ih =>
    intro upd h
    rw [List.filter_cons] at h
    rw [mergeBack_cons]
    by_cases hp : p a
    · rw [if_pos hp]
      rw [if_pos hp] at h
      cases h with
      | cons hu hus =>
        exact List.Forall₂.cons hu (ih _ hus)
    · rw [if_neg hp]
      rw [if_neg hp] at h
      exact List.Forall₂.cons (Grows.refl a) (ih _ h)

/-- Every updated list lands in the merged snapshot (the updated view never
outruns the filtered view). -/
theorem mergeBack_upd_mem (p : FItem → Bool) :
    ∀ st upd, List.Forall₂ Grows (st.filter p) upd →
      ∀ u ∈ upd, u ∈ mergeBack p st upd := by
  intro st
  induction st with
  | nil =>
    intro upd h u hu
    simp only [List.filter_nil] at h
    cases h
    simp at hu
  | cons a rest ih =>
    intro upd h u hu
    rw [List.filter_cons] at h
    rw [mergeBack_cons]
    by_cases hp : p a
    · rw [if_pos hp]
      rw [if_pos hp] at h
      cases h with
      | cons hu2 hus =>
        rename_i u2 us
        rcases List.mem_cons.mp hu with huu | huu
        · simp [huu]
        · exact List.mem_cons_of_mem _ (ih us hus u huu)
    · rw [if_neg hp]
      rw [if_neg hp] at h
      exact List.mem_cons_of_mem _ (ih upd h u hu)

/-- Merging keeps the id sequence of the snapshot. -/
theorem mergeBack_ids (p : FItem → Bool) :
    ∀ st upd, List.Forall₂ Grows (st.filter p) upd →
      (mergeBack p st upd).map (fun it => it.id) = st.map (fun it => it.id) := by
  intro st
  induction st with
  | nil => intro upd h; rfl
  | cons a rest ih =>
    intro upd h
    rw [List.filter_cons] at h
    rw [mergeBack_cons]
    by_cases hp : p a
    · rw [if_pos hp]
      rw [if_pos hp] at h
      cases h with
      | cons hu hus =>
        rename_i u us
        simp only [List.map_cons]
        rw [ih us hus, hu.1]
    · rw [if_neg hp]
      rw [if_neg hp] at h
      simp only [List.map_cons]
      rw [ih upd h]

end MergeBackLemmas

section ApplySemantics

/-- Modelled from the spec: the destination write boundary, which is outside
this repository (DestinationWriter is an external collaborator).  A PUT is a
full replace of the entries and label of the list with the matching id; a
POST appends a new list whose id is assigned by the destination — modelled
here as the empty string, which no snapshot list is assumed to use. -/
def applyIntent (st : List FItem) : Intent → List FItem
  | .update i l es =>
    st.map (fun it => if it.id = i then { it with label := l, entities := es } else it)
  | .create l es => st ++ [⟨"", l, es⟩]

/-- Modelled from the spec: apply a sequence of write intents in order. -/
def applyIntents (st : List FItem) (is : List Intent) : List FItem :=
  is.foldl applyIntent st

/-- The lists a sequence of CreateList intents materializes at the
destination, in order, with the destination-assigned placeholder id. -/
def materializeCreates (is : List Intent) : List FItem :=
  is.filterMap (fun i => match i with | .create l es => some ⟨"", l, es⟩ | _ => none)

theorem applyIntents_cons (st : List FItem) (i : Intent) (is : List Intent) :
    applyIntents st (i :: is) = applyIntents (applyIntent st i) is := rfl

theorem applyIntents_append (st : List FItem) (a b : List Intent) :
    applyIntents st (a ++ b) = applyIntents (applyIntents st a) b := by
  unfold applyIntents
  exact List.foldl_append _ _ _ _

theorem materializeCreates_update (id l : String) (es : List Entity) (is : List Intent) :
    materializeCreates (Intent.update id l es :: is) = materializeCreates is := by
  simp [materializeCreates]

theorem materializeCreates_create (l : String) (es : List Entity) (is : List Intent) :
    materializeCreates (Intent.create l es :: is) =
      ⟨"", l, es⟩ :: materializeCreates is := by
  simp [materializeCreates]

theorem materializeCreates_append (a b : List Intent) :
    materializeCreates (a ++ b) = materializeCreates a ++ materializeCreates b := by
  simp [materializeCreates]

theorem materializeCreates_ids (is : List Intent) :
    ∀ f ∈ materializeCreates is, f.id = "" := by
  intro f hf
  unfold materializeCreates at hf
  rw [List.mem_filterMap] at hf
  obtain ⟨i, hi, hfe⟩ := hf
  cases i with
  | update i1 l es => simp at hfe
  | create l es =>
    simp only [Option.some.injEq] at hfe
    rw [← hfe]

theorem map_update_skip (i : String) (lnew : String) (es : List Entity) :
    ∀ l : List FItem, (∀ b ∈ l, b.id ≠ i) →
      l.map (fun it => if it.id = i then { it with label := lnew, entities := es } else it)
        = l := by
  intro l hl
  induction l with
  | nil => rfl
  | cons a rest ih =>
    simp only [List.map_cons]
    rw [if_neg (hl a (by simp))]
    rw [ih (fun b hb => hl b (List.mem_cons_of_mem _ hb))]

theorem filter_decomp (p : FItem → Bool) :
    ∀ st pre (it : FItem) post, st.filter p = pre ++ it :: post →
      ∃ A B, st = A ++ it :: B ∧ A.filter p = pre ∧ B.filter p = post ∧ p it = true := by
  intro st
  induction st with
  | nil =>
    intro pre it post h
    simp only [List.filter_nil] at h
    exact absurd h.symm (List.append_ne_nil_of_right_ne_nil pre (by simp))
  | cons a rest ih =>
    intro pre it post h
    rw [List.filter_cons] at h
    by_cases hp : p a
    · rw [if_pos hp] at h
      cases pre with
      | nil =>
        simp only [List.nil_append, List.cons.injEq] at h
        exact ⟨[], rest, by rw [h.1]; rfl, rfl, by rw [h.2], by rw [← h.1]; exact hp⟩
      | cons q pre2 =>
        simp only [List.cons_append, List.cons.injEq] at h
        obtain ⟨A, B, hst, hA, hB, hpit⟩ := ih pre2 it post h.2
        refine ⟨a :: A, B, by rw [hst]; rfl, ?_, hB, hpit⟩
        rw [List.filter_cons, if_pos hp, hA, h.1]
    · rw [if_neg hp] at h
      obtain ⟨A, B, hst, hA, hB, hpit⟩ := ih pre it post h
      refine ⟨a :: A, B, by rw [hst]; rfl, ?_, hB, hpit⟩
      rw [List.filter_cons, if_neg hp, hA]

theorem mergeBack_congr (p : FItem → Bool) (it it2 : FItem)
    (hpit : p it = true) (hpit2 : p it2 = true) :
    ∀ A B u, (A.filter p).length < u.length →
      mergeBack p (A ++ it :: B) u = mergeBack p (A ++ it2 :: B) u := by
  intro A
  induction A with
  | nil =>
    intro B u hlen
    cases u with
    | nil => simp at hlen
    | cons u0 us =>
      simp only [List.nil_append]
      rw [mergeBack_cons, mergeBack_cons, if_pos hpit, if_pos hpit2]
  | cons a A2 ih =>
    intro B u hlen
    rw [List.filter_cons] at hlen
    simp only [List.cons_append, mergeBack_cons]
    by_cases hp : p a
    · simp only [if_pos hp]
      rw [if_pos hp] at hlen
      cases u with
      | nil => simp at hlen
      | cons u0 us =>
        simp only
        rw [ih B us (by simp at hlen; omega)]
    · simp only [if_neg hp]
      rw [if_neg hp] at hlen
      rw [ih B u hlen]

end ApplySemantics

section ApplyStructure

/-- The label-prefix membership test `item["label"].startswith(object_type)`. -/
def pLabel (objectType : String) : FItem → Bool :=
  fun it => strStartsWith it.label objectType

theorem pLabel_eq (objectType : String) :
    pLabel objectType = fun it => strStartsWith it.label objectType := rfl

theorem ids_split {A B : List FItem} {it : FItem}
    (h : ((A ++ it :: B).map (fun x => x.id)).Nodup) :
    (∀ b ∈ A, b.id ≠ it.id) ∧ (∀ b ∈ B, b.id ≠ it.id) := by
  simp only [List.map_append, List.map_cons] at h
  have h2 := List.nodup_append.mp h
  constructor
  · intro b hb heq
    exact h2.2.2 (List.mem_map.mpr ⟨b, hb, heq⟩) (List.mem_cons_self _ _)
  · intro b hb heq
    have hni := (List.nodup_cons.mp h2.2.1).1
    exact hni (List.mem_map.mpr ⟨b, hb, heq⟩)

/-- Applying the intents of one type's packing run to the full snapshot (plus
a trailing segment of freshly created, id-less lists) yields exactly the
mutated snapshot followed by the trailing segment and the lists the run's
CreateList intents materialize. -/
theorem addEntriesGo_apply (objectType : String) (tm : Bool) :
    ∀ fuel ne st tail c,
      ((st.map (fun it => it.id)).Nodup) →
      (∀ it ∈ st, it.id ≠ "") →
      (∀ it ∈ tail, it.id = "") →
      applyIntents (st ++ tail)
          (addEntriesGo objectType tm fuel ne (st.filter (pLabel objectType)) c).intents =
        mergeBack (pLabel objectType) st
            (addEntriesGo objectType tm fuel ne (st.filter (pLabel objectType)) c).existing
          ++ tail ++
          materializeCreates
            (addEntriesGo objectType tm fuel ne (st.filter (pLabel objectType)) c).intents := by
  intro fuel
  induction fuel with
  | zero =>
    intro ne st tail c hids hne0 htail
    rw [addEntriesGo_zero]
    show st ++ tail = mergeBack (pLabel objectType) st (st.filter (pLabel objectType))
      ++ tail ++ materializeCreates []
    rw [mergeBack_self]
    simp [materializeCreates]
  | succ n ih =>
    intro ne st tail c hids hne0 htail
    cases ne with
    | nil =>
      rw [addEntriesGo_nil]
      show st ++ tail = mergeBack (pLabel objectType) st (st.filter (pLabel objectType))
        ++ tail ++ materializeCreates []
      rw [mergeBack_self]
      simp [materializeCreates]
    | cons a t =>
      rw [addEntriesGo_cons]
      cases hscan : scanLists (a :: t) (st.filter (pLabel objectType)) with
      | some val =>
        obtain ⟨pre, it, post⟩ := val
        have hexdec := scanLists_some _ _ _ _ _ hscan
        obtain ⟨A, B, hst, hA, hB, hpit⟩ :=
          filter_decomp (pLabel objectType) st pre it post hexdec.1
        simp only [loopBody, hscan]
        set toAdd := (((a :: t).filter
          (fun n => decide (n ∉ itemTexts it))).take (50 - it.entities.length)) with htoAdd
        set it2 : FItem := { it with entities := it.entities ++ toAdd.map mkEntry } with hit2def
        set ne2 := (a :: t).filter (fun n => decide (n ∉ toAdd)) with hne2def
        rw [applyIntents_cons]
        have hitid : it.id ≠ "" := hne0 it (by rw [hst]; simp)
        have hsplit : (∀ b ∈ A, b.id ≠ it.id) ∧ (∀ b ∈ B, b.id ≠ it.id) :=
          ids_split (by rw [hst] at hids; exact hids)
        have happly : applyIntent (st ++ tail)
            (Intent.update it.id it.label it2.entities) = (A ++ it2 :: B) ++ tail := by
          simp only [applyIntent]
          rw [hst]
          simp only [List.append_assoc, List.cons_append, List.map_append, List.map_cons]
          rw [map_update_skip it.id it.label it2.entities A hsplit.1]
          rw [map_update_skip it.id it.label it2.entities B hsplit.2]
          rw [map_update_skip it.id it.label it2.entities tail
            (fun b hb => by rw [htail b hb]; exact fun h => hitid h.symm)]
          simp [hit2def]
        rw [happly]
        set st2 : List FItem := A ++ it2 :: B with hst2def
        have hpit2 : pLabel objectType it2 = true := hpit
        have hfilter2 : st2.filter (pLabel objectType) = pre ++ it2 :: post := by
          rw [hst2def, List.filter_append, List.filter_cons, if_pos hpit2, hA, hB]
        have hids2 : (st2.map (fun x => x.id)).Nodup := by
          have heq : st2.map (fun x => x.id) = st.map (fun x => x.id) := by
            rw [hst2def, hst]
            simp only [List.map_append, List.map_cons]
          rw [heq]
          exact hids
        have hne02 : ∀ b ∈ st2, b.id ≠ "" := by
          intro b hb
          rw [hst2def] at hb
          rcases List.mem_append.mp hb with hb | hb
          · exact hne0 b (by rw [hst]; exact List.mem_append_left _ hb)
          · rcases List.mem_cons.mp hb with hb | hb
            · rw [hb]; exact hitid
            · exact hne0 b (by rw [hst]; simp [hb])
        rw [← hfilter2]
        rw [ih ne2 st2 tail c hids2 hne02 htail]
        rw [materializeCreates_update]
        have hlen : ((A.filter (pLabel objectType)).length <
            (addEntriesGo objectType tm n ne2 (st2.filter (pLabel objectType)) c).existing.length) := by
          have hl := List.Forall₂.length_eq
            (addEntriesGo_grows objectType tm n ne2 (st2.filter (pLabel objectType)) c)
          have hl2 : (st2.filter (pLabel objectType)).length =
              pre.length + post.length + 1 := by
            rw [hfilter2]
            simp only [List.length_append, List.length_cons]
            omega
          rw [hA]
          omega
        have hmb : mergeBack (pLabel objectType) st2
            (addEntriesGo objectType tm n ne2 (st2.filter (pLabel objectType)) c).existing =
            mergeBack (pLabel objectType) st
            (addEntriesGo objectType tm n ne2 (st2.filter (pLabel objectType)) c).existing := by
          rw [hst2def, hst]
          exact mergeBack_congr (pLabel objectType) it2 it hpit2 hpit A B _ hlen
        rw [hmb]
      | none =>
        simp only [loopBody, hscan, createStep]
        rw [applyIntents_cons]
        set lbl := objectType ++ "-" ++ toString (c + 1) with hlbl
        set es := (((a :: t).take 50).map mkEntry) with hes
        set newIt : FItem := ⟨"", lbl, es⟩ with hnewIt
        have happly : applyIntent (st ++ tail) (Intent.create lbl es) =
            st ++ (tail ++ [newIt]) := by
          simp only [applyIntent]
          rw [List.append_assoc]
        rw [happly]
        have htail2 : ∀ b ∈ tail ++ [newIt], b.id = "" := by
          intro b hb
          rcases List.mem_append.mp hb with hb | hb
          · exact htail b hb
          · simp only [List.mem_singleton] at hb
            rw [hb, hnewIt]
        rw [ih _ st (tail ++ [newIt]) (c + 1) hids hne0 htail2]
        rw [materializeCreates_create]
        simp [List.append_assoc]

end ApplyStructure

section SyncApply

theorem strStartsWith_append (s t : String) : strStartsWith (s ++ t) s = true := by
  unfold strStartsWith
  rw [String.data_append, List.isPrefixOf_iff_prefix]
  exact List.prefix_append _ _

theorem strStartsWith_label (T mid n : String) :
    strStartsWith (T ++ mid ++ n) T = true := by
  unfold strStartsWith
  rw [String.data_append, String.data_append, List.isPrefixOf_iff_prefix,
    List.append_assoc]
  exact List.prefix_append _ _

theorem itemTexts_mk (i l : String) (names : List String) :
    itemTexts ⟨i, l, names.map mkEntry⟩ = names := by
  simp [itemTexts, mkEntry, Function.comp_def]

/-- Labels preserved in place: the merged snapshot's ids are the snapshot's. -/
theorem processType_snapshot_grows (tm : Bool) (st : SyncState) (objectType : String)
    (names : List String) :
    List.Forall₂ Grows st.snapshot (processType tm st objectType names).2.2.snapshot := by
  simp only [processType, addEntriesToFeedly]
  apply mergeBack_grows
  exact addEntriesGo_grows objectType tm _ _ _ _

theorem syncLoop_snapshot_grows (tm : Bool) :
    ∀ jd st, ∀ a ∈ st.snapshot,
      ∃ b ∈ (syncLoop tm jd st).2.2.snapshot, Grows a b := by
  intro jd
  induction jd with
  | nil =>
    intro st a ha
    rw [syncLoop_nil]
    exact ⟨a, ha, Grows.refl a⟩
  | cons hd rest ih =>
    obtain ⟨objectType, names⟩ := hd
    intro st a ha
    rw [syncLoop_cons]
    simp only
    obtain ⟨m, hm, hgm⟩ := forall2_mem_left
      (processType_snapshot_grows tm st objectType names) a ha
    obtain ⟨b, hb, hgb⟩ := ih _ m hm
    exact ⟨b, hb, hgm.trans hgb⟩

/-- Applying a full pass's intents to the snapshot (plus a trailing segment
of id-less lists) yields the pass's final in-memory snapshot, the trailing
segment, and all lists materialized by its CreateList intents. -/
theorem syncLoop_apply (tm : Bool) :
    ∀ jd (st tail : List FItem) (cs : String → Nat),
      ((st.map (fun it => it.id)).Nodup) →
      (∀ it ∈ st, it.id ≠ "") →
      (∀ it ∈ tail, it.id = "") →
      applyIntents (st ++ tail) (syncLoop tm jd ⟨st, cs⟩).1 =
        (syncLoop tm jd ⟨st, cs⟩).2.2.snapshot ++ tail ++
          materializeCreates (syncLoop tm jd ⟨st, cs⟩).1 := by
  intro jd
  induction jd with
  | nil =>
    intro st tail cs hids hne0 htail
    rw [syncLoop_nil]
    show st ++ tail = st ++ tail ++ materializeCreates []
    simp [materializeCreates]
  | cons hd rest ih =>
    obtain ⟨objectType, names⟩ := hd
    intro st tail cs hids hne0 htail
    rw [syncLoop_cons]
    simp only [processType, addEntriesToFeedly]
    rw [applyIntents_append]
    rw [← pLabel_eq objectType]
    set ne := names.dedup.filter
      (fun n => decide (n ∉ haveTexts (st.filter (pLabel objectType)))) with hnedef
    rw [addEntriesGo_apply objectType tm ne.length ne st tail
      (cs objectType) hids hne0 htail]
    set goRes := addEntriesGo objectType tm ne.length ne
      (st.filter (pLabel objectType)) (cs objectType) with hgo
    set st2 := mergeBack (pLabel objectType) st goRes.existing with hst2
    have hgrows : List.Forall₂ Grows (st.filter (pLabel objectType)) goRes.existing := by
      rw [hgo]
      exact addEntriesGo_grows objectType tm _ _ _ _
    have hids2 : (st2.map (fun it => it.id)).Nodup := by
      rw [hst2, mergeBack_ids (pLabel objectType) st goRes.existing hgrows]
      exact hids
    have hne02 : ∀ it ∈ st2, it.id ≠ "" := by
      intro b hb
      rw [hst2] at hb
      rcases mergeBack_mem _ _ b hb with h | h
      · exact hne0 b h
      · obtain ⟨a0, ha0, hga⟩ := forall2_mem_right hgrows b h
        rw [hga.1]
        exact hne0 a0 (List.mem_of_mem_filter ha0)
    have htail2 : ∀ it ∈ tail ++ materializeCreates goRes.intents, it.id = "" := by
      intro b hb
      rcases List.mem_append.mp hb with hb | hb
      · exact htail b hb
      · exact materializeCreates_ids goRes.intents b hb
    rw [List.append_assoc]
    rw [ih st2 (tail ++ materializeCreates goRes.intents) _ hids2 hne02 htail2]
    rw [materializeCreates_append]
    simp [List.append_assoc]

end SyncApply

section CoverageLemmas

/-- Every missing entry either ends up in one of the (mutated) existing lists
or in one of the lists materialized by the run's CreateList intents. -/
theorem addEntriesGo_coverage (objectType : String) (tm : Bool) :
    ∀ fuel ne ex c, ne.length ≤ fuel → ∀ L ∈ ne,
      (∃ it ∈ (addEntriesGo objectType tm fuel ne ex c).existing, L ∈ itemTexts it) ∨
      (∃ f ∈ materializeCreates (addEntriesGo objectType tm fuel ne ex c).intents,
        L ∈ itemTexts f) := by
  intro fuel
  induction fuel with
  | zero =>
    intro ne ex c hlen L hL
    have hnil : ne = [] := List.eq_nil_of_length_eq_zero (Nat.le_zero.mp hlen)
    subst hnil
    simp at hL
  | succ n ih =>
    intro ne ex c hlen L hL
    cases ne with
    | nil => simp at hL
    | cons a t =>
      rw [addEntriesGo_cons]
      cases hscan : scanLists (a :: t) ex with
      | some val =>
        obtain ⟨pre, it, post⟩ := val
        simp only [loopBody, hscan]
        have hexdec := scanLists_some _ _ _ _ _ hscan
        set toAdd := (((a :: t).filter (fun n => decide (n ∉ itemTexts it))).take
          (50 - it.entities.length)) with htoAdd
        set ne2 := (a :: t).filter (fun n => decide (n ∉ toAdd)) with hne2
        set it2 : FItem := { it with entities := it.entities ++ toAdd.map mkEntry } with hit2
        have hlen2 : ne2.length ≤ n := by
          obtain ⟨y, ys, hys⟩ := List.exists_cons_of_ne_nil hexdec.2.2
          have hroom := hexdec.2.1
          have hspace : 50 - it.entities.length = (50 - it.entities.length - 1) + 1 := by
            omega
          have hymem : y ∈ toAdd := by
            rw [htoAdd, hys, hspace, List.take_succ_cons]
            exact List.mem_cons_self y _
          have hyne : y ∈ (a :: t) := by
            have hyf : y ∈ (a :: t).filter (fun n => decide (n ∉ itemTexts it)) := by
              rw [hys]
              exact List.mem_cons_self y ys
            exact (List.mem_filter.mp hyf).1
          have hlt : ne2.length < (a :: t).length := by
            rw [hne2]
            exact filter_length_lt_of_mem hyne (by simp [hymem])
          simp only [List.length_cons] at hlt hlen
          omega
        by_cases hL2 : L ∈ ne2
        · rcases ih ne2 _ c hlen2 L hL2 with h | h
          · exact Or.inl h
          · right
            rw [materializeCreates_update]
            exact h
        · have hLadd : L ∈ toAdd := by
            by_contra hc
            apply hL2
            rw [hne2, List.mem_filter]
            exact ⟨hL, decide_eq_true hc⟩
          left
          have hit2mem : it2 ∈ pre ++ it2 :: post := by simp
          obtain ⟨b, hb, hgb⟩ := forall2_mem_left
            (addEntriesGo_grows objectType tm n ne2 (pre ++ it2 :: post) c) it2 hit2mem
          refine ⟨b, hb, hgb.texts_mono L ?_⟩
          rw [hit2, itemTexts_extend]
          exact List.mem_append_right _ hLadd
      | none =>
        simp only [loopBody, hscan, createStep]
        set ne2 := (a :: t).filter (fun n => decide (n ∉ (a :: t).take 50)) with hne2
        have hlen2 : ne2.length ≤ n := by
          have hamem : a ∈ (a :: t).take 50 := by
            rw [show (50 : Nat) = 49 + 1 from rfl, List.take_succ_cons]
            exact List.mem_cons_self a _
          have hlt : ne2.length < (a :: t).length := by
            rw [hne2]
            exact filter_length_lt_of_mem (List.mem_cons_self a t) (by simp [hamem])
          simp only [List.length_cons] at hlt hlen
          omega
        by_cases hL2 : L ∈ ne2
        · rcases ih ne2 ex (c + 1) hlen2 L hL2 with h | h
          · exact Or.inl h
          · right
            rw [materializeCreates_create]
            obtain ⟨f, hf, hLf⟩ := h
            exact ⟨f, List.mem_cons_of_mem _ hf, hLf⟩
        · right
          have hLtake : L ∈ (a :: t).take 50 := by
            by_contra hc
            apply hL2
            rw [hne2, List.mem_filter]
            exact ⟨hL, decide_eq_true hc⟩
          rw [materializeCreates_create]
          refine ⟨⟨"", objectType ++ "-" ++ toString (c + 1), ((a :: t).take 50).map mkEntry⟩,
            List.mem_cons_self _ _, ?_⟩
          rw [itemTexts_mk]
          exact hLtake

/-- Every list materialized by a run's CreateList intents has the type as a
label prefix. -/
theorem addEntriesGo_creates_prefixed (objectType : String) (tm : Bool) :
    ∀ fuel ne ex c, ∀ f ∈ materializeCreates (addEntriesGo objectType tm fuel ne ex c).intents,
      strStartsWith f.label objectType = true := by
  intro fuel
  induction fuel with
  | zero =>
    intro ne ex c f hf
    rw [addEntriesGo_zero] at hf
    simp [materializeCreates] at hf
  | succ n ih =>
    intro ne ex c f hf
    cases ne with
    | nil =>
      rw [addEntriesGo_nil] at hf
      simp [materializeCreates] at hf
    | cons a t =>
      rw [addEntriesGo_cons] at hf
      cases hscan : scanLists (a :: t) ex with
      | some val =>
        obtain ⟨pre, it, post⟩ := val
        simp only [loopBody, hscan] at hf
        rw [materializeCreates_update] at hf
        exact ih _ _ _ f hf
      | none =>
        simp only [loopBody, hscan, createStep] at hf
        rw [materializeCreates_create] at hf
        rcases List.mem_cons.mp hf with hf | hf
        · rw [hf]
          exact strStartsWith_label objectType "-" (toString (c + 1))
        · exact ih _ _ _ f hf

end CoverageLemmas

/-- Full-pass coverage: every source label of every type in the group ends up,
after the pass, in some list (mutated or created) whose label has the type as
a prefix. -/
theorem syncLoop_coverage (tm : Bool) :
    ∀ jd st (objectType : String) (names : List String),
      (objectType, names) ∈ jd → ∀ L ∈ names,
      ∃ it, (it ∈ (syncLoop tm jd st).2.2.snapshot ∨
             it ∈ materializeCreates (syncLoop tm jd st).1) ∧
        strStartsWith it.label objectType = true ∧ L ∈ itemTexts it := by
  intro jd
  induction jd with
  | nil =>
    intro st T names h
    simp at h
  | cons hd rest ih =>
    obtain ⟨T0, names0⟩ := hd
    intro st T names hmem L hL
    rw [syncLoop_cons]
    simp only
    rcases List.mem_cons.mp hmem with hmem | hmem
    · injection hmem with hT hnames
      subst hT
      subst hnames
      by_cases hHave : L ∈ haveTexts
          (st.snapshot.filter (fun it => strStartsWith it.label T))
      · obtain ⟨it0, hit0, hLt0⟩ := List.mem_flatMap.mp hHave
        have hp0 : strStartsWith it0.label T = true := (List.mem_filter.mp hit0).2
        obtain ⟨m, hm, hgm⟩ := forall2_mem_left
          (processType_snapshot_grows tm st T names) it0 (List.mem_of_mem_filter hit0)
        obtain ⟨b, hb, hgb⟩ := syncLoop_snapshot_grows tm rest _ m hm
        refine ⟨b, Or.inl hb, ?_, (hgm.trans hgb).texts_mono L hLt0⟩
        rw [(hgm.trans hgb).2.1]
        exact hp0
      · have hLne : L ∈ names.dedup.filter (fun n => decide (n ∉ haveTexts
            (st.snapshot.filter (fun it => strStartsWith it.label T)))) := by
          rw [List.mem_filter]
          exact ⟨List.mem_dedup.mpr hL, decide_eq_true hHave⟩
        set neT := names.dedup.filter (fun n => decide (n ∉ haveTexts
          (st.snapshot.filter (fun it => strStartsWith it.label T)))) with hneT
        set exT := st.snapshot.filter (fun it => strStartsWith it.label T) with hexT
        rcases addEntriesGo_coverage T tm neT.length neT exT (st.counts T)
            (Nat.le_refl _) L hLne with ⟨it1, hit1, hLit1⟩ | ⟨f, hf, hLf⟩
        · have hgrows : List.Forall₂ Grows exT
              (addEntriesGo T tm neT.length neT exT (st.counts T)).existing :=
            addEntriesGo_grows T tm neT.length neT exT (st.counts T)
          obtain ⟨a0, ha0, hga0⟩ := forall2_mem_right hgrows it1 hit1
          have ha0f : a0 ∈ st.snapshot.filter (fun it => strStartsWith it.label T) := by
            rw [← hexT]
            exact ha0
          have hp1 : strStartsWith it1.label T = true := by
            rw [hga0.2.1]
            exact (List.mem_filter.mp ha0f).2
          have hmerge : it1 ∈ mergeBack (fun it => strStartsWith it.label T) st.snapshot
              (addEntriesGo T tm neT.length neT exT (st.counts T)).existing :=
            mergeBack_upd_mem _ _ _ (by rw [← hexT]; exact hgrows) it1 hit1
          obtain ⟨b, hb, hgb⟩ := syncLoop_snapshot_grows tm rest
            (processType tm st T names).2.2 it1 hmerge
          refine ⟨b, Or.inl hb, ?_, hgb.texts_mono L hLit1⟩
          rw [hgb.2.1]
          exact hp1
        · refine ⟨f, Or.inr ?_,
            addEntriesGo_creates_prefixed T tm neT.length neT exT (st.counts T) f hf, hLf⟩
          rw [materializeCreates_append]
          exact List.mem_append_left _ hf
    · obtain ⟨it, hloc, hp, hLt⟩ := ih (processType tm st T0 names0).2.2 T names hmem L hL
      refine ⟨it, ?_, hp, hLt⟩
      rcases hloc with h | h
      · exact Or.inl h
      · right
        rw [materializeCreates_append]
        exact List.mem_append_right _ h

/-- Claim C6: for every type in the group and every source label of that type,
after applying all emitted intents to the pre-pass snapshot some destination
list whose label starts with the type contains an entry with that text
(assuming snapshot ids are pairwise distinct and none collides with the
placeholder id the model assigns to created lists). -/
theorem claim_C6_coverage (tm : Bool) (jd : List (String × List String))
    (fd : List FItem) (hids : (fd.map (fun it => it.id)).Nodup)
    (hfresh : ∀ it ∈ fd, it.id ≠ "") (objectType : String) (names : List String)
    (hTn : (objectType, names) ∈ jd) (L : String) (hL : L ∈ names) :
    ∃ it ∈ applyIntents fd (syncToFeedly tm jd fd).1,
      strStartsWith it.label objectType = true ∧ L ∈ itemTexts it := by
  have happ := syncLoop_apply tm jd fd [] (fun t => listCount fd t) hids hfresh
    (by intro it h; simp at h)
  simp only [List.append_nil] at happ
  obtain ⟨it, hloc, hp, hLt⟩ := syncLoop_coverage tm jd ⟨fd, fun t => listCount fd t⟩
    objectType names hTn L hL
  refine ⟨it, ?_, hp, hLt⟩
  show it ∈ applyIntents fd (syncLoop tm jd ⟨fd, fun t => listCount fd t⟩).1
  rw [happ]
  rcases hloc with h | h
  · exact List.mem_append_left _ h
  · exact List.mem_append_right _ h

theorem claim_C6_coverage_witness :
    ∃ it ∈ applyIntents [] (syncToFeedly true [("T", ["x"])] []).1,
      strStartsWith it.label "T" = true ∧ "x" ∈ itemTexts it :=
  claim_C6_coverage true [("T", ["x"])] [] (by decide) (by simp) "T" ["x"]
    (by decide) "x" (by decide)

/-- When every label of every type is already present in a matching list of
the snapshot, the pass emits no intents at all. -/
theorem syncLoop_no_missing (tm : Bool) :
    ∀ jd st, (∀ T names, (T, names) ∈ jd → ∀ L ∈ names,
        L ∈ haveTexts (st.snapshot.filter (fun it => strStartsWith it.label T))) →
      (syncLoop tm jd st).1 = [] := by
  intro jd
  induction jd with
  | nil => intro st h; rfl
  | cons hd rest ih =>
    obtain ⟨T0, names0⟩ := hd
    intro st h
    rw [syncLoop_cons]
    simp only
    have hne : names0.dedup.filter (fun n => decide (n ∉ haveTexts
        (st.snapshot.filter (fun it => strStartsWith it.label T0)))) = [] := by
      rw [List.filter_eq_nil_iff]
      intro a ha
      simp only [decide_eq_true_eq, Decidable.not_not]
      exact h T0 names0 (List.mem_cons_self _ _) a (List.mem_dedup.mp ha)
    have hp1 : (processType tm st T0 names0).1 = [] := by
      simp only [processType, addEntriesToFeedly, hne, addEntriesGo_nil]
    have hsnap : (processType tm st T0 names0).2.2.snapshot = st.snapshot := by
      simp only [processType, addEntriesToFeedly, hne, addEntriesGo_nil]
      exact mergeBack_self _ _
    rw [hp1]
    simp only [List.nil_append]
    apply ih
    intro T names hmem L hL
    rw [hsnap]
    exact h T names (List.mem_cons_of_mem _ hmem) L hL

/-- Claim C5: idempotence — applying all intents of one pass to the snapshot
and rerunning the same type group against the result emits zero intents
(assuming snapshot ids are pairwise distinct and none collides with the
placeholder id the model assigns to created lists). -/
theorem claim_C5_idempotence (tm : Bool) (jd : List (String × List String))
    (fd : List FItem) (hids : (fd.map (fun it => it.id)).Nodup)
    (hfresh : ∀ it ∈ fd, it.id ≠ "") :
    (syncToFeedly tm jd (applyIntents fd (syncToFeedly tm jd fd).1)).1 = [] := by
  apply syncLoop_no_missing
  intro T names hmem L hL
  have happ := syncLoop_apply tm jd fd [] (fun t => listCount fd t) hids hfresh
    (by intro it h; simp at h)
  simp only [List.append_nil] at happ
  obtain ⟨it, hloc, hp, hLt⟩ := syncLoop_coverage tm jd ⟨fd, fun t => listCount fd t⟩
    T names hmem L hL
  have hitpost : it ∈ applyIntents fd (syncToFeedly tm jd fd).1 := by
    show it ∈ applyIntents fd (syncLoop tm jd ⟨fd, fun t => listCount fd t⟩).1
    rw [happ]
    rcases hloc with h | h
    · exact List.mem_append_left _ h
    · exact List.mem_append_right _ h
  exact mem_haveTexts_of_mem (List.mem_filter.mpr ⟨hitpost, hp⟩) hLt

theorem claim_C5_idempotence_witness :
    (syncToFeedly true [("T", ["x"])]
      (applyIntents [] (syncToFeedly true [("T", ["x"])] []).1)).1 = [] :=
  claim_C5_idempotence true [("T", ["x"])] [] (by decide) (by simp)

section RawModel

/-- A raw Feedly record as fetched from the API: any dict key may be absent.
`item.get(...)` reads return a default; `item["..."]` reads raise `KeyError`. -/
structure RawItem where
  id : Option String
  label : Option String
  entities : Option (List Entity)
deriving DecidableEq

/-- `{item["label"]: ... for item in feedly_data}`: the label of every record,
in order; the first record missing its label raises `KeyError`, aborting the
whole comprehension (and, through the surrounding `try`, the whole sync). -/
def rawLabels : List RawItem → Except Unit (List String)
  | [] => .ok []
  | it :: rest =>
    match it.label with
    | none => .error ()
    | some l =>
      match rawLabels rest with
      | .ok ls => .ok (l :: ls)
      | .error e => .error e

/-- `item["label"].startswith(object_type)`; only reached when every label is
present (the `feedly_entities` comprehension has already succeeded). -/
def rawStartsWith (objectType : String) (it : RawItem) : Bool :=
  match it.label with
  | some l => strStartsWith l objectType
  | none => false

/-- `{entity.get("text") for entity in item.get("entities", [])}`. -/
def rawItemTexts (it : RawItem) : List String :=
  (it.entities.getD []).map (fun e => e.text)

def rawHaveTexts (ex : List RawItem) : List String := ex.flatMap rawItemTexts

/-- The scan of the while loop over raw records: `len(item["entities"])`
raises `KeyError` on a record missing its entities collection. -/
def rawScanLists (ne : List String) :
    List RawItem → Except Unit (Option (List RawItem × RawItem × List RawItem))
  | [] => .ok none
  | it :: rest =>
    match it.entities with
    | none => .error ()
    | some es =>
      if es.length < 50 ∧ ne.filter (fun n => decide (n ∉ rawItemTexts it)) ≠ [] then
        .ok (some ([], it, rest))
      else
        match rawScanLists ne rest with
        | .ok (some (pre, x, post)) => .ok (some (it :: pre, x, post))
        | .ok none => .ok none
        | .error e => .error e

/-- Result of the raw packing loop: payloads prepared so far, the mutated
existing lists, the final count, and whether a `KeyError` escaped. -/
structure RawLoopResult where
  intents : List Intent
  existing : List RawItem
  count : Nat
  err : Option Unit

/-- `_add_entries_to_feedly` over raw records: a record missing its entities
collection raises when the scan reaches it; a scanned record missing its id or
label raises while the PUT payload is built (after the in-place extend). -/
def rawAddEntriesGo (objectType : String) (tm : Bool) :
    Nat → List String → List RawItem → Nat → RawLoopResult
  | 0, _, ex, c => ⟨[], ex, c, none⟩
  | _ + 1, [], ex, c => ⟨[], ex, c, none⟩
  | fuel + 1, ne@(_ :: _), ex, c =>
    match rawScanLists ne ex with
    | .error e => ⟨[], ex, c, some e⟩
    | .ok (some (pre, it, post)) =>
      match it.entities with
      | none => ⟨[], ex, c, some ()⟩
      | some es =>
        let toAdd := (ne.filter (fun n => decide (n ∉ rawItemTexts it))).take (50 - es.length)
        let es2 := es ++ toAdd.map mkEntry
        let it2 : RawItem := { it with entities := some es2 }
        match it.id, it.label with
        | some i, some l =>
          let ne2 := ne.filter (fun n => decide (n ∉ toAdd))
          let r := rawAddEntriesGo objectType tm fuel ne2 (pre ++ it2 :: post) c
          ⟨Intent.update i l es2 :: r.intents, r.existing, r.count, r.err⟩
        | _, _ => ⟨[], pre ++ it2 :: post, c, some ()⟩
    | .ok none =>
      let c2 := c + 1
      let lbl := objectType ++ "-" ++ toString c2
      let toAdd := ne.take 50
      let ne2 := ne.filter (fun n => decide (n ∉ toAdd))
      let r := rawAddEntriesGo objectType tm fuel ne2 ex c2
      ⟨Intent.create lbl (toAdd.map mkEntry) :: r.intents, r.existing, r.count, r.err⟩

/-- Write the mutated lists of one type back into the raw snapshot. -/
def rawMergeBack (p : RawItem → Bool) : List RawItem → List RawItem → List RawItem
  | [], _ => []
  | it :: rest, upd =>
    if p it then
      match upd with
      | [] => it :: rawMergeBack p rest []
      | u :: us => u :: rawMergeBack p rest us
    else it :: rawMergeBack p rest upd

/-- The per-type loop of `sync_to_feedly` over raw records: an exception from
one type's packing run aborts every remaining type (it propagates to the
`except` clause of `sync_to_feedly`). -/
def rawSyncLoop (tm : Bool) :
    List (String × List String) → List RawItem → (String → Nat) → List Intent × Bool
  | [], _, _ => ([], false)
  | (objectType, names) :: rest, fd, counts =>
    let ex := fd.filter (rawStartsWith objectType)
    let ne := names.dedup.filter (fun n => decide (n ∉ rawHaveTexts ex))
    let r := rawAddEntriesGo objectType tm ne.length ne ex (counts objectType)
    match r.err with
    | some _ => (r.intents, true)
    | none =>
      let fd2 := rawMergeBack (rawStartsWith objectType) fd r.existing
      let q := rawSyncLoop tm rest fd2 (fun t => if t = objectType then r.count else counts t)
      (r.intents ++ q.1, q.2)

/-- `sync_to_feedly` over raw records: the payloads prepared before any caught
`KeyError`, and whether the pass was aborted by one.  The `feedly_entities`
comprehension runs first, so a record missing its label aborts before any
type is reconciled. -/
def rawSyncToFeedly (tm : Bool) (jd : List (String × List String))
    (fd : List RawItem) : List Intent × Bool :=
  match rawLabels fd with
  | .error _ => ([], true)
  | .ok labels =>
    rawSyncLoop tm jd fd
      (fun objectType => (labels.dedup.filter (fun l => strStartsWith l objectType)).length)

theorem rawLabels_error (fd : List RawItem) (h : ∃ it ∈ fd, it.label = none) :
    rawLabels fd = .error () := by
  induction fd with
  | nil => simp at h
  | cons a rest ih =>
    obtain ⟨it, hit, hnone⟩ := h
    rw [rawLabels]
    rcases List.mem_cons.mp hit with hit | hit
    · rw [hit] at hnone
      rw [hnone]
    · cases ha : a.label with
      | none => rfl
      | some l =>
        rw [ih ⟨it, hit, hnone⟩]

/-- Claim C7 counterexample: a snapshot containing one record without a label
makes the whole pass abort with zero intents (first conjunct), although a
completed reconciliation of type "T" with that record excluded would emit the
CreateList intent for "x" (second conjunct, the well-formed run on the
snapshot without the malformed record). -/
theorem claim_C7_abort_counterexample :
    rawSyncToFeedly true [("T", ["x"])] [⟨some "i", none, some []⟩] = ([], true) ∧
    (syncToFeedly true [("T", ["x"])] []).1 = [Intent.create "T-1" [mkEntry "x"]] := by
  constructor
  · decide
  · decide

/-- Claim C7 (amended): a destination record missing its label aborts the
whole pass before any type is reconciled — the `KeyError` raised by the
`feedly_entities` comprehension is caught inside `sync_to_feedly` (no
exception escapes), but zero intents are emitted and no type is processed. -/
theorem claim_C7_amended_abort (tm : Bool) (jd : List (String × List String))
    (fd : List RawItem) (h : ∃ it ∈ fd, it.label = none) :
    rawSyncToFeedly tm jd fd = ([], true) := by
  unfold rawSyncToFeedly
  rw [rawLabels_error fd h]

theorem claim_C7_amended_abort_witness :
    rawSyncToFeedly true [("T", ["x"])] [⟨some "i", none, some []⟩] = ([], true) :=
  claim_C7_amended_abort true [("T", ["x"])] [⟨some "i", none, some []⟩]
    ⟨⟨some "i", none, some []⟩, by decide, rfl⟩

end RawModel
